import Mathlib

/-!
Shallow embedding of the scheduling engine of `src/newgenerator.py`: the
functions `get_time_slots`, `apply_teacher_conflict_constraint`,
`apply_section_constraint` and `generate_college_timetable_with_sections`.

Python values are embedded as follows: Python `int` becomes `Int` (slot
positions, which the code always draws from `range(num_slots)`, become
`Nat`), Python `str` becomes `String`, Python lists become `List`, and
Python dicts become association lists in insertion order (`pyUpsert`
mirrors `d[k] = v`, `pyLookup` mirrors key lookup on a dict with unique
keys).  The external CP-SAT solver is not part of the repository; the
embedding keeps the model the code builds (per-occurrence start domains
together with the pairwise mutual-exclusion constraints, expressed by the
predicate `Satisfies`) and treats the solver outcome as a parameter: a
status plus the bound start values, which is all the code reads back.
-/

set_option synthInstance.maxSize 512

namespace Sched

/-- Association list lookup, first match: key lookup on a Python dict
whose keys are unique. -/
def pyLookup {α : Type} (l : List (String × α)) (k : String) : Option α :=
  (l.find? (fun p => p.1 = k)).map (fun p => p.2)

/-- Python dict assignment `d[k] = v`: update the value in place when the
key is present (keeping insertion order), append otherwise. -/
def pyUpsert {α : Type} (l : List (String × α)) (k : String) (v : α) :
    List (String × α) :=
  match l with
  | [] => [(k, v)]
  | (k0, v0) :: rest =>
    if k0 = k then (k, v) :: rest else (k0, v0) :: pyUpsert rest k v

/-- Update the value at the first occurrence of a key in an association
list; Python dict mutation touches the unique occurrence of the key. -/
def pyModify {α : Type} (l : List (String × α)) (k : String) (f : α → α) :
    List (String × α) :=
  match l with
  | [] => []
  | (k0, v0) :: rest =>
    if k0 = k then (k0, f v0) :: rest else (k0, v0) :: pyModify rest k f

/-- Python `s.lower()` character by character (kernel-friendly form of
lower-casing; agrees with the Python method on ASCII labels). -/
def pyLower (s : String) : String := ⟨s.data.map Char.toLower⟩

/-- Python `s[:2]`: the first two characters. -/
def pyTake2 (s : String) : String := ⟨s.data.take 2⟩

/-- One entry of `constraints["working_days"]`: the fields the engine
reads (`day`, `start_hr`, `total_hours`, each passed through `int`). -/
structure RawDay where
  day : String
  start_hr : Int
  total_hours : Int
deriving DecidableEq

/-- The dicts `slot_counts_by_day` and `start_times` that the engine
builds from the working-day list, merged into one association list (both
are keyed by the same `d["day"]` values, so they always share their key
set).  Values are `(total_hours, start_hr)`. -/
def buildDayMaps (wd : List RawDay) : List (String × Int × Int) :=
  wd.foldl (fun acc d => pyUpsert acc d.day (d.total_hours, d.start_hr)) []

/-- Lunch-hour skip of `get_time_slots`: `while start == 12: start += 1`.
The loop body makes the guard false after one step, so it runs at most
once. -/
def skipLunch (h : Int) : Int := if h = 12 then 13 else h

/-- Day abbreviation table of `get_time_slots`, with the Python fallback
`day[:2]` for a day label outside the table. -/
def dayAbbrev (day : String) : String :=
  if day = "Monday" then "M"
  else if day = "Tuesday" then "T"
  else if day = "Wednesday" then "W"
  else if day = "Thursday" then "Th"
  else if day = "Friday" then "F"
  else if day = "Saturday" then "Sa"
  else if day = "Sunday" then "Su"
  else pyTake2 day

/-- The clock hours one day contributes in `get_time_slots`: each of the
`hours` loop iterations skips the lunch hour, emits, and increments. -/
def dayHours (start : Int) : Nat → List Int
  | 0 => []
  | n + 1 => skipLunch start :: dayHours (skipLunch start + 1) n

/-- One emitted time slot.  `idx` is the value of the global counter when
the slot was emitted, `abbr` and `ord` are the abbreviation and the
one-based loop position from which the code forms the slot name; every
read of the name recombines them with `slotName`, so only the
concatenated string ever acts as a key.  `day` is the originating day
label and `hour` the clock-hour label stored in `slot_time`. -/
structure Slot where
  idx : Nat
  abbr : String
  ord : Nat
  day : String
  hour : Int
deriving DecidableEq

/-- The slot name stored in `slot_names` and keying `slot_to_day`: the
f-string of abbreviation and one-based loop position.  Distinct
abbreviation/position pairs can collide on the name (`M1` before
position 1 and `M` before position 11 both yield `M11`). -/
def slotName (a : String) (o : Nat) : String := a ++ toString o

/-- Slots of one working day starting at global counter value `idx0`: the
inner loop of `get_time_slots`. -/
def daySlots (day : String) (start : Int) (hours : Nat) (idx0 : Nat) :
    List Slot :=
  (dayHours start hours).enum.map (fun p =>
    { idx := idx0 + p.1, abbr := dayAbbrev day, ord := p.1 + 1,
      day := day, hour := p.2 })

/-- The full slot table of `get_time_slots`: concatenation over the days
of the (deduplicated) day dict, with the global slot counter threaded
through. -/
def buildSlots : List (String × Int × Int) → Nat → List Slot
  | [], _ => []
  | (day, hours, start) :: rest, idx0 =>
    daySlots day start hours.toNat idx0 ++ buildSlots rest (idx0 + hours.toNat)

/-- The slot table the engine computes for a given working-day list. -/
def slotsOf (wd : List RawDay) : List Slot := buildSlots (buildDayMaps wd) 0

/-- Lookup in the dict `slot_to_day`, keyed by the concatenated slot
name and storing the lower-cased day label; a later duplicate name
overwrites an earlier one, so the lookup finds the last emitted slot
carrying the name. -/
def slotToDay (slots : List Slot) (n : String) : Option String :=
  (slots.reverse.find? (fun sl => decide (slotName sl.abbr sl.ord = n))).map
    (fun sl => pyLower sl.day)

/-- Python list indexing with an `int` index: nonnegative indexes from the
front, negative indexes from the back; `none` stands for the raised
IndexError when the index is out of range either way (the code reaches
the negative branch only for `end_idx = s + duration - 1 < 0`). -/
def pyElem (slots : List Slot) (i : Int) : Option Slot :=
  if 0 ≤ i then slots.get? i.toNat
  else if 0 ≤ (slots.length : Int) + i then
    slots.get? ((slots.length : Int) + i).toNat
  else none

/-- One entry of the `courses` input list, restricted to the fields the
engine reads; `sec` is the value of the section key with the Python-side
default `"A"` already applied, `lectures` and `duration` are the values
after `int`. -/
structure Course where
  subject : String
  year : String
  sec : String
  teacher : String
  lectures : Int
  duration : Int
deriving DecidableEq

/-- Teacher availability: the `start_hr` and `end_hr` values stored for a
teacher (defaults 9 and 17 are applied at lookup time). -/
structure TeacherInfo where
  start_hr : Int
  end_hr : Int
deriving DecidableEq

/-- An entry of `processed_courses`: the course fields plus the resolved
teacher window.  The `name` field of the Python dict only labels solver
variables and is omitted. -/
structure PCourse where
  subject : String
  year : String
  sec : String
  teacher : String
  lectures : Int
  duration : Int
  start_hr : Int
  end_hr : Int
deriving DecidableEq

/-- The `processed_courses` list before free-period padding: attach to
each course the availability window of its teacher, defaulting to the
window 9 to 17 when the teacher is unknown. -/
def processCourses (courses : List Course)
    (teachers : List (String × TeacherInfo)) : List PCourse :=
  courses.map (fun c =>
    let ti := (pyLookup teachers c.teacher).getD { start_hr := 9, end_hr := 17 }
    { subject := c.subject, year := c.year, sec := c.sec, teacher := c.teacher,
      lectures := c.lectures, duration := c.duration,
      start_hr := ti.start_hr, end_hr := ti.end_hr })

/-- The grouping key used for section requirements and the section
constraint: year and section joined by an underscore. -/
def sectionKey (year sec : String) : String := year ++ "_" ++ sec

/-- The dict `section_requirements`: per section key, the sum of
`lectures * duration` over the courses with that key. -/
def sectionReq (pcs : List PCourse) : List (String × Int) :=
  pcs.foldl (fun acc c =>
    let k := sectionKey c.year c.sec
    pyUpsert acc k ((pyLookup acc k).getD 0 + c.lectures * c.duration)) []

/-- The sections input: year to ordered dict of section name to room (the
capacity field is unused by the engine and omitted; a missing room key is
embedded as the empty string the code defaults to). -/
abbrev Sections := List (String × List (String × String))

/-- Python `sections.get(year, {"A": {}})`. -/
def sectionsGet (sections : Sections) (year : String) : List (String × String) :=
  (pyLookup sections year).getD [("A", "")]

/-- The four hard-coded year labels of the engine. -/
def years4 : List String := ["Year1", "Year2", "Year3", "Year4"]

/-- The seven lower-case day labels of the response skeleton, in the
order the code lists them. -/
def weekDays : List String :=
  ["monday", "tuesday", "wednesday", "thursday", "friday", "saturday", "sunday"]

/-- The idle course synthesized for one year and section: subject Free,
teacher None, duration 1, the full clock window, and one lecture per
missing slot. -/
def freeCourse (year sec : String) (used : Int) (numSlots : Nat) : PCourse :=
  { subject := "Free", year := year, sec := sec, teacher := "None",
    lectures := (numSlots : Int) - used, duration := 1,
    start_hr := 0, end_hr := 24 }

/-- The free-period padding block: for each of the four years and each of
its section names, when the academic demand is below the week capacity,
append one course `Free` for the difference, with duration 1, teacher
`"None"` and the full clock window 0 to 24. -/
def paddingCourses (sections : Sections) (req : List (String × Int))
    (numSlots : Nat) : List PCourse :=
  years4.flatMap (fun year =>
    (sectionsGet sections year).filterMap (fun p =>
      if (pyLookup req (sectionKey year p.1)).getD 0 < (numSlots : Int) then
        some (freeCourse year p.1
          ((pyLookup req (sectionKey year p.1)).getD 0) numSlots)
      else none))

/-- The complete `processed_courses` list: academic courses first, then
the padding block when free periods are allowed. -/
def processedWithPadding (courses : List Course)
    (teachers : List (String × TeacherInfo)) (sections : Sections)
    (allow_free : Bool) (numSlots : Nat) : List PCourse :=
  let pcs := processCourses courses teachers
  if allow_free then pcs ++ paddingCourses sections (sectionReq pcs) numSlots
  else pcs

/-- The clock-window test of the domain loop: every slot from `s` to
`end_idx` has its hour inside the half-open window. -/
def hoursOk (slots : List Slot) (sh eh : Int) (s : Nat) (endIdx : Int) : Bool :=
  if endIdx < (s : Int) then true
  else
    (List.range (endIdx.toNat + 1 - s)).all (fun k =>
      match slots.get? (s + k) with
      | some sl => decide (sh ≤ sl.hour ∧ sl.hour < eh)
      | none => false)

/-- The day-boundary test of the domain loop: the `slot_to_day` values of
the names at positions `s` and `end_idx` agree, with Python indexing for
`end_idx`.  When `end_idx` is below even Python back-indexing the code
raises IndexError; the embedding folds that case into rejection of `s`
(no theorem below depends on inputs reaching it). -/
def sameDayOk (slots : List Slot) (s : Nat) (endIdx : Int) : Bool :=
  match slots.get? s, pyElem slots endIdx with
  | some sl1, some sl2 =>
    decide (slotToDay slots (slotName sl1.abbr sl1.ord) =
      slotToDay slots (slotName sl2.abbr sl2.ord))
  | _, _ => false

/-- The list `allowed_vals` of legal start positions computed for one
processed course. -/
def allowedVals (slots : List Slot) (c : PCourse) : List Nat :=
  (List.range slots.length).filter (fun s =>
    let endIdx : Int := (s : Int) + c.duration - 1
    if (slots.length : Int) ≤ endIdx then false
    else sameDayOk slots s endIdx && hoursOk slots c.start_hr c.end_hr s endIdx)

/-- One schedulable occurrence: the metadata row plus the start domain of
its solver variable. -/
structure Occ where
  occId : Nat
  subject : String
  year : String
  sec : String
  teacher : String
  duration : Int
  domain : List Nat
deriving DecidableEq

/-- The infeasible-domain error message, naming subject, year and
section. -/
def infeasibleMsg (c : PCourse) : String :=
  "No feasible slots for " ++ c.subject ++ " (Year " ++ c.year ++
    ", Section " ++ c.sec ++ ")."

/-- The occurrence-creation loop: per processed course compute
`allowed_vals`, fail when it is empty while the course still demands
lectures, otherwise emit one occurrence per lecture with consecutive
ids. -/
def buildOccs (slots : List Slot) : List PCourse → Nat → Except String (List Occ)
  | [], _ => .ok []
  | c :: rest, i =>
    let av := allowedVals slots c
    if av = [] ∧ 0 < c.lectures then .error (infeasibleMsg c)
    else
      match buildOccs slots rest (i + c.lectures.toNat) with
      | .error m => .error m
      | .ok os =>
        .ok ((List.range c.lectures.toNat).map (fun k =>
          { occId := i + k, subject := c.subject, year := c.year, sec := c.sec,
            teacher := c.teacher, duration := c.duration, domain := av }) ++ os)

/-- Interval disjointness on start positions as both constraint builders
test it: `[s1, s1+d1)` and `[s2, s2+d2)` do not overlap. -/
def noOverlap (s1 : Nat) (d1 : Int) (s2 : Nat) (d2 : Int) : Prop :=
  (s1 : Int) + d1 ≤ (s2 : Int) ∨ (s2 : Int) + d2 ≤ (s1 : Int)

instance (s1 : Nat) (d1 : Int) (s2 : Nat) (d2 : Int) :
    Decidable (noOverlap s1 d1 s2 d2) := by
  unfold noOverlap; infer_instance

/-- Semantic content of the constraint model: every occurrence starts
inside its domain (the channelled indicator booleans), any two
occurrences of the same teacher do not overlap (the teacher conflict
constraint), and any two occurrences with the same section key do not
overlap (the section conflict constraint; the interval no-overlap
constraint over the same groups is implied for the positive durations the
theorems below treat).  The external solver reports success exactly when
it bound start values with these properties. -/
def Satisfies (occs : List Occ) (A : Nat → Nat) : Prop :=
  (∀ o ∈ occs, A o.occId ∈ o.domain) ∧
  occs.Pairwise (fun o1 o2 => o1.teacher = o2.teacher →
    noOverlap (A o1.occId) o1.duration (A o2.occId) o2.duration) ∧
  occs.Pairwise (fun o1 o2 =>
    sectionKey o1.year o1.sec = sectionKey o2.year o2.sec →
    noOverlap (A o1.occId) o1.duration (A o2.occId) o2.duration)

instance decSatisfies (occs : List Occ) (A : Nat → Nat) :
    Decidable (Satisfies occs A) := by
  unfold Satisfies
  haveI h1 : DecidableRel (fun o1 o2 : Occ => o1.teacher = o2.teacher →
      noOverlap (A o1.occId) o1.duration (A o2.occId) o2.duration) :=
    fun o1 o2 => by infer_instance
  haveI h2 : DecidableRel (fun o1 o2 : Occ =>
      sectionKey o1.year o1.sec = sectionKey o2.year o2.sec →
      noOverlap (A o1.occId) o1.duration (A o2.occId) o2.duration) :=
    fun o1 o2 => by infer_instance
  infer_instance

/-- One schedule entry of the response.  The dict stores the formatted
start and end times; the embedding stores the numbers and formats them
with `fmtTime` where the code reads the strings. -/
structure Entry where
  slotAbbr : String
  slotOrd : Nat
  subject : String
  teacher : String
  sec : String
  room : String
  start_hr : Int
  end_hr : Int
deriving DecidableEq

/-- Python `f"{h:02d}:00"`: decimal rendering zero-padded to width two
(the sign counts toward the width), then the minutes suffix. -/
def fmtTime (h : Int) : String :=
  let s := toString h
  (if s.length < 2 then "0" ++ s else s) ++ ":00"

/-- Python string comparison, code point by code point. -/
def charsLe : List Char → List Char → Bool
  | [], _ => true
  | _ :: _, [] => false
  | a :: as, b :: bs =>
    if a.toNat < b.toNat then true
    else if b.toNat < a.toNat then false
    else charsLe as bs

/-- Python string comparison on the underlying character lists. -/
def pyStrLe (a b : String) : Bool := charsLe a.data b.data

/-- Sort relation of the response buckets: ascending formatted start
time, the `list.sort` key the code uses. -/
def entryLe (e1 e2 : Entry) : Prop :=
  pyStrLe (fmtTime e1.start_hr) (fmtTime e2.start_hr) = true

instance : DecidableRel entryLe := fun e1 e2 => by
  unfold entryLe; infer_instance

/-- The per-bucket sorting pass.  Python `list.sort` is stable and a
stable sort by a fixed key order has a unique result; insertion sort is
stable here (an earlier element precedes a later one with an equal key),
so it is the same function. -/
def sortEntries (l : List Entry) : List Entry := List.insertionSort entryLe l

/-- Day-bucket dict of one section: day label to entry list. -/
abbrev DayMap := List (String × List Entry)

/-- Section dict of one year: section name to day buckets. -/
abbrev SecMap := List (String × DayMap)

/-- The nested response: year to section to day to entries. -/
abbrev Resp := List (String × SecMap)

/-- The empty response skeleton: the four years, each with the section
names from the sections input (default single section A), each with the
seven days and an empty bucket. -/
def respInit (sections : Sections) : Resp :=
  years4.map (fun y =>
    (y, (sectionsGet sections y).map (fun p =>
      (p.1, weekDays.map (fun d => (d, ([] : List Entry)))))))

/-- The guarded append into the response: skip silently when the year or
section key is absent, append into the day bucket otherwise; `none`
stands for the KeyError raised when the day key is missing. -/
def bucketAppend (r : Resp) (y s d : String) (e : Entry) : Option Resp :=
  match pyLookup r y with
  | none => some r
  | some sm =>
    match pyLookup sm s with
    | none => some r
    | some dm =>
      match pyLookup dm d with
      | none => none
      | some _ =>
        some (pyModify r y (fun sm0 => pyModify sm0 s (fun dm0 =>
          pyModify dm0 d (fun l => l ++ [e]))))

/-- Room resolution of the result assembler: the stored room when year
and section are present in the sections input, the empty string
otherwise. -/
def roomOf (sections : Sections) (y s : String) : String :=
  match pyLookup sections y with
  | none => ""
  | some m => (pyLookup m s).getD ""

/-- The schedule entry built for one bound occurrence: resolve the start
position through the slot table, compute the end hour as start plus
duration, attach the room.  Returns the bucket day label with the entry;
`none` stands for the IndexError on a start position outside the slot
table, unreachable for the domains the engine builds. -/
def entryOf (slots : List Slot) (sections : Sections) (o : Occ) (start : Nat) :
    Option (String × Entry) :=
  match slots.get? start with
  | none => none
  | some sl =>
    match slotToDay slots (slotName sl.abbr sl.ord) with
    | none => none
    | some day =>
      some (day,
        { slotAbbr := sl.abbr, slotOrd := sl.ord, subject := o.subject,
          teacher := o.teacher, sec := o.sec,
          room := roomOf sections o.year o.sec,
          start_hr := sl.hour, end_hr := sl.hour + o.duration })

/-- The response-population loop over the occurrence metadata. -/
def assembleRaw (slots : List Slot) (sections : Sections) (occs : List Occ)
    (A : Nat → Nat) : Option Resp :=
  occs.foldl (fun acc o =>
    match acc with
    | none => none
    | some r =>
      match entryOf slots sections o (A o.occId) with
      | none => none
      | some de => bucketAppend r o.year o.sec de.1 de.2)
    (some (respInit sections))

/-- The final sorting pass over every bucket of the response. -/
def sortResp (r : Resp) : Resp :=
  r.map (fun ysm => (ysm.1, ysm.2.map (fun sdm =>
    (sdm.1, sdm.2.map (fun dl => (dl.1, sortEntries dl.2))))))

/-- Outcome statuses of the external CP-SAT solve. -/
inductive CpStatus
  | optimal
  | feasible
  | infeasible
  | unknown
  | modelInvalid
deriving DecidableEq

/-- A solve result as the caller sees it: a schedule or the error dict;
the surrounding `Option` in `generate` stands for an uncaught Python
exception. -/
inductive GenResult
  | schedule (r : Resp)
  | failure (msg : String)
deriving DecidableEq

/-- The engine `generate_college_timetable_with_sections`.  The external
solve is a parameter: `status` is the returned status and `A` the start
values it bound; `A` is read only when the status reports success, and
the solver contract is that such an `A` meets `Satisfies`.  The
truthiness test on the constraints dict is folded into the working-day
check, as an empty constraints dict yields an empty working-day list. -/
def generate (wd : List RawDay) (courses : List Course)
    (teachers : List (String × TeacherInfo)) (sections : Sections)
    (allow_free : Bool) (status : CpStatus) (A : Nat → Nat) :
    Option GenResult :=
  if courses = [] then some (.failure "No constraints or courses provided.")
  else if wd = [] then some (.failure "No working days configured.")
  else
    match buildOccs (slotsOf wd)
        (processedWithPadding courses teachers sections allow_free
          (slotsOf wd).length) 0 with
    | .error m => some (.failure m)
    | .ok occs =>
      if status = .optimal ∨ status = .feasible then
        (assembleRaw (slotsOf wd) sections occs A).map (fun r =>
          .schedule (sortResp r))
      else
        some (.failure
          "No valid timetable found. Try adjusting constraints or reducing conflicts.")

/-- Bucket access in the nested response. -/
def getBucket (r : Resp) (y s d : String) : Option (List Entry) :=
  match pyLookup r y with
  | none => none
  | some sm =>
    match pyLookup sm s with
    | none => none
    | some dm => pyLookup dm d

/-- Spec-side domain condition, written from the words of the claim: a
start `s` is legal for duration `d` and window `sh` to `eh` iff (1)
`s + d - 1` is a valid slot index, (2) the day labels of slot `s` and of
slot `s + d - 1` agree, and (3) every slot from `s` to `s + d - 1` has
its clock hour inside the window. -/
def specLegal (slots : List Slot) (sh eh d : Int) (s : Nat) : Bool :=
  let e : Int := (s : Int) + d - 1
  decide (0 ≤ e) && decide (e < (slots.length : Int)) &&
  decide ((slots.get? s).map Slot.day = (slots.get? e.toNat).map Slot.day) &&
  (if e < (s : Int) then true
   else (List.range (e.toNat + 1 - s)).all (fun k =>
     match slots.get? (s + k) with
     | some sl => decide (sh ≤ sl.hour ∧ sl.hour < eh)
     | none => false))

/-- Clock-interval overlap between two entries, exactly as the claim
defines it on the half-open intervals from start to end hour. -/
def hourOverlap (e1 e2 : Entry) : Prop :=
  ¬ (e1.end_hr ≤ e2.start_hr ∨ e2.end_hr ≤ e1.start_hr)

instance (e1 e2 : Entry) : Decidable (hourOverlap e1 e2) := by
  unfold hourOverlap; infer_instance

/-- Every entry of a response, tagged with its bucket day label, in
bucket order. -/
def allEntries (r : Resp) : List (String × Entry) :=
  r.flatMap (fun ysm => ysm.2.flatMap (fun sdm =>
    sdm.2.flatMap (fun dl => dl.2.map (fun e => (dl.1, e)))))

/-- The no-teacher-double-booking property of a response as the claim
states it: any two entries (at distinct positions of the schedule) with
the same teacher and the same bucket day have non-overlapping clock
intervals. -/
def NoTeacherOverlap (r : Resp) : Prop :=
  (allEntries r).Pairwise (fun p1 p2 => p1.1 = p2.1 →
    p1.2.teacher = p2.2.teacher → ¬ hourOverlap p1.2 p2.2)

instance decNoTeacherOverlap (r : Resp) : Decidable (NoTeacherOverlap r) := by
  unfold NoTeacherOverlap
  haveI h1 : DecidableRel (fun p1 p2 : String × Entry => p1.1 = p2.1 →
      p1.2.teacher = p2.2.teacher → ¬ hourOverlap p1.2 p2.2) :=
    fun p1 p2 => by infer_instance
  infer_instance

/-- Number of entries of one year and section across the week. -/
def entryCount (r : Resp) (y s : String) : Nat :=
  (weekDays.map (fun d => ((getBucket r y s d).getD []).length)).sum

/-- Sum of entry durations (end hour minus start hour) of one year and
section across the week. -/
def durationSum (r : Resp) (y s : String) : Int :=
  (weekDays.map (fun d =>
    (((getBucket r y s d).getD []).map (fun e => e.end_hr - e.start_hr)).sum)).sum

/-- Total number of entries anywhere in a response. -/
def totalCount (r : Resp) : Nat := (allEntries r).length

/-! Concrete input fixtures used by counterexamples and witnesses. -/

/-- One Monday with three slots starting at hour 9. -/
def wdMon3 : List RawDay := [{ day := "Monday", start_hr := 9, total_hours := 3 }]

/-- One Monday with a single slot at hour 9. -/
def wdMon1 : List RawDay := [{ day := "Monday", start_hr := 9, total_hours := 1 }]

/-- One Monday with two slots starting at hour 9. -/
def wdMon2 : List RawDay := [{ day := "Monday", start_hr := 9, total_hours := 2 }]

/-- One teacher T available from 9 to 12. -/
def teaT912 : List (String × TeacherInfo) := [("T", { start_hr := 9, end_hr := 12 })]

/-- One maths course, Year1 section A, teacher T, one lecture of one
slot. -/
def crsMath1 : List Course :=
  [{ subject := "Math", year := "Year1", sec := "A", teacher := "T",
     lectures := 1, duration := 1 }]

/-- A sections input with Year1 section A in room R1. -/
def secY1A : Sections := [("Year1", [("A", "R1")])]

/-- The padded occurrence list of the one-slot instance: the maths
occurrence plus one idle occurrence for the default section A of each of
the other three years, every domain being the single slot. -/
def occsPad1 : List Occ :=
  (buildOccs (slotsOf wdMon1)
    (processedWithPadding crsMath1 teaT912 secY1A true 1) 0).toOption.getD []

/-- The unpadded occurrence list of the same instance. -/
def occsNoPad1 : List Occ :=
  (buildOccs (slotsOf wdMon1)
    (processedWithPadding crsMath1 teaT912 secY1A false 1) 0).toOption.getD []

/-- The idle course generated for Year2 section A of the one-slot
instance. -/
def freeY2A : PCourse :=
  { subject := "Free", year := "Year2", sec := "A", teacher := "None",
    lectures := 1, duration := 1, start_hr := 0, end_hr := 24 }

/-- The entries that end up, in occurrence order, in the bucket of year
`y`, section `s` and day `d`: one entry per occurrence with that year and
section whose resolved day label is `d`. -/
def entriesFor (slots : List Slot) (sections : Sections) (occs : List Occ)
    (A : Nat → Nat) (y s d : String) : List Entry :=
  occs.filterMap (fun o =>
    match entryOf slots sections o (A o.occId) with
    | some de => if o.year = y ∧ o.sec = s ∧ de.1 = d then some de.2 else none
    | none => none)

/-- Closed form of the populated (unsorted) response: the skeleton of
`respInit` with each bucket holding its `entriesFor` list. -/
def canonicalResp (slots : List Slot) (sections : Sections) (occs : List Occ)
    (A : Nat → Nat) : Resp :=
  years4.map (fun y =>
    (y, (sectionsGet sections y).map (fun p =>
      (p.1, weekDays.map (fun d =>
        (d, entriesFor slots sections occs A y p.1 d))))))

/-- An occurrence is routed into the response exactly when its year is
one of the four hard-coded labels and its section is a key of the
sections entry of that year (default section A). -/
def goodOcc (sections : Sections) (o : Occ) : Prop :=
  o.year ∈ years4 ∧ o.sec ∈ (sectionsGet sections o.year).map Prod.fst

instance (sections : Sections) (o : Occ) : Decidable (goodOcc sections o) := by
  unfold goodOcc; infer_instance

/-- The processed maths course of the fixture: window 9 to 12 attached. -/
def pcMath912 : PCourse :=
  { subject := "Math", year := "Year1", sec := "A", teacher := "T",
    lectures := 1, duration := 1, start_hr := 9, end_hr := 12 }

/-- One Monday with a single slot at clock hour 30 (outside the idle
window 0..24). -/
def wdH30 : List RawDay := [{ day := "Monday", start_hr := 30, total_hours := 1 }]

/-- Teacher T available from 25 to 40 (covers the clock-30 slot). -/
def teaT2540 : List (String × TeacherInfo) :=
  [("T", { start_hr := 25, end_hr := 40 })]

/-- One Monday with two slots at clock hours 99 and 100, where the
zero-padded time strings order differently from the numbers. -/
def wdMon99 : List RawDay := [{ day := "Monday", start_hr := 99, total_hours := 2 }]

/-- Two teachers T1 and T2 with a window covering hours 99 and 100. -/
def teaDuo : List (String × TeacherInfo) :=
  [("T1", { start_hr := 0, end_hr := 200 }),
   ("T2", { start_hr := 0, end_hr := 200 })]

/-- Two one-lecture courses for Year1 section A by the two teachers. -/
def crsDuo : List Course :=
  [{ subject := "S1", year := "Year1", sec := "A", teacher := "T1",
     lectures := 1, duration := 1 },
   { subject := "S2", year := "Year1", sec := "A", teacher := "T2",
     lectures := 1, duration := 1 }]

/-- Occurrence list of the 99-100 fixture. -/
def occs99 : List Occ :=
  (buildOccs (slotsOf wdMon99)
    (processedWithPadding crsDuo teaDuo secY1A false 2) 0).toOption.getD []

/-- The schedule returned on the three-slot Monday fixture. -/
def respMon3 : Resp :=
  match generate wdMon3 crsMath1 teaT912 secY1A false .feasible (fun _ => 0) with
  | some (.schedule r) => r
  | _ => []

/-- Closed form of the occurrence list on the success path of
`buildOccs`. -/
def expandOccs (slots : List Slot) : List PCourse → Nat → List Occ
  | [], _ => []
  | c :: rest, i =>
    (List.range c.lectures.toNat).map (fun k =>
      { occId := i + k, subject := c.subject, year := c.year, sec := c.sec,
        teacher := c.teacher, duration := c.duration,
        domain := allowedVals slots c }) ++
      expandOccs slots rest (i + c.lectures.toNat)

/-- Courses of the completeness fixture: one duration-2 maths lecture for
Year1 A, and three duration-1 lectures for each other year filling the
week so only Year1 gets idle padding. -/
def crsC8 : List Course :=
  [{ subject := "Math", year := "Year1", sec := "A", teacher := "T",
     lectures := 1, duration := 2 },
   { subject := "P2", year := "Year2", sec := "A", teacher := "U2",
     lectures := 3, duration := 1 },
   { subject := "P3", year := "Year3", sec := "A", teacher := "U3",
     lectures := 3, duration := 1 },
   { subject := "P4", year := "Year4", sec := "A", teacher := "U4",
     lectures := 3, duration := 1 }]

/-- Four distinct teachers, all available 9 to 12. -/
def teaC8 : List (String × TeacherInfo) :=
  [("T", { start_hr := 9, end_hr := 12 }),
   ("U2", { start_hr := 9, end_hr := 12 }),
   ("U3", { start_hr := 9, end_hr := 12 }),
   ("U4", { start_hr := 9, end_hr := 12 })]

/-- A satisfying start assignment of the completeness fixture: the maths
block at slots 0-1, its idle filler at slot 2, the other years spread
over slots 0, 1, 2. -/
def asgC8 : Nat → Nat := fun i => [0, 0, 1, 2, 0, 1, 2, 0, 1, 2, 2].getD i 0

/-- Occurrence list of the completeness fixture with padding enabled. -/
def occsC8 : List Occ :=
  (buildOccs (slotsOf wdMon3)
    (processedWithPadding crsC8 teaC8 secY1A true 3) 0).toOption.getD []

/-- The schedule returned on the completeness fixture. -/
def respC8 : Resp :=
  match generate wdMon3 crsC8 teaC8 secY1A true .feasible asgC8 with
  | some (.schedule r) => r
  | _ => []

/-- Two single-slot working days whose labels differ only in case, so
both lower-case to `monday`. -/
def wdMonMON : List RawDay :=
  [{ day := "Monday", start_hr := 9, total_hours := 1 },
   { day := "MONDAY", start_hr := 9, total_hours := 1 }]

/-- One course with two single-slot lectures of the same teacher. -/
def crsC1 : List Course :=
  [{ subject := "Math", year := "Year1", sec := "A", teacher := "T",
     lectures := 2, duration := 1 }]

/-- Occurrence list of the case-collision fixture. -/
def occsC1 : List Occ :=
  (buildOccs (slotsOf wdMonMON)
    (processedWithPadding crsC1 teaT912 secY1A false 2) 0).toOption.getD []

/-- The schedule returned on the case-collision fixture under the
identity start assignment. -/
def respC1 : Resp :=
  match generate wdMonMON crsC1 teaT912 secY1A false .feasible
      (fun i => i) with
  | some (.schedule r) => r
  | _ => []

/-- One teacher T available only from 9 to 10. -/
def teaT910 : List (String × TeacherInfo) :=
  [("T", { start_hr := 9, end_hr := 10 })]

/-- A calendar with colliding slot names: day `M1zzz` (abbreviation
`M1`) emits name `M11`, and the 11th Monday slot (abbreviation `M`)
emits the same name `M11`, whose day binding overwrites the first. -/
def wdColl : List RawDay :=
  [{ day := "M1zzz", start_hr := 9, total_hours := 1 },
   { day := "Monday", start_hr := 9, total_hours := 11 }]

/-- Occurrence list of the name-collision fixture. -/
def occsColl : List Occ :=
  (buildOccs (slotsOf wdColl)
    (processedWithPadding crsC1 teaT910 secY1A false 12) 0).toOption.getD []

/-- The schedule returned on the name-collision fixture under the
identity start assignment. -/
def respColl : Resp :=
  match generate wdColl crsC1 teaT910 secY1A false .feasible
      (fun i => i) with
  | some (.schedule r) => r
  | _ => []

/-- A twelve-slot Monday followed by day `M1zzz`, whose single slot
name `M11` overwrites the day binding of Monday's 11th slot. -/
def wdC6b : List RawDay :=
  [{ day := "Monday", start_hr := 9, total_hours := 12 },
   { day := "M1zzz", start_hr := 9, total_hours := 1 }]

/-- A duration-2 course with the unrestricted clock window. -/
def pcC6b : PCourse :=
  { subject := "X", year := "Year1", sec := "A", teacher := "T",
    lectures := 1, duration := 2, start_hr := 0, end_hr := 24 }

/-- Occurrence list of the three-slot Monday fixture. -/
def occsMon3 : List Occ :=
  (buildOccs (slotsOf wdMon3)
    (processedWithPadding crsMath1 teaT912 secY1A false 3) 0).toOption.getD []

/-!  Theorems. -/

/-- C3, counterexample: on a concrete well-formed instance the engine
returns the identical error descriptor for the timeout status and for
the proved-infeasible status, so the two failure outcomes do not carry
different error descriptors as the claim states. -/
theorem c3_counterexample :
    generate wdMon3 crsMath1 teaT912 secY1A false .unknown (fun _ => 0) =
      generate wdMon3 crsMath1 teaT912 secY1A false .infeasible (fun _ => 0) ∧
    generate wdMon3 crsMath1 teaT912 secY1A false .unknown (fun _ => 0) =
      some (.failure
        "No valid timetable found. Try adjusting constraints or reducing conflicts.") := by
  decide

/-- C3, amended: when the solve ends without success, whatever the
unsuccessful status (deadline reached with the instance unknown, proved
infeasible, or invalid model), the engine returns the one fixed failure
descriptor; a timeout is not reported distinctly from infeasibility. -/
theorem c3_failure_collapsed (wd : List RawDay) (courses : List Course)
    (teachers : List (String × TeacherInfo)) (sections : Sections)
    (af : Bool) (st : CpStatus) (A : Nat → Nat)
    (hc : courses ≠ []) (hw : wd ≠ [])
    (hok : ∃ occs, buildOccs (slotsOf wd)
      (processedWithPadding courses teachers sections af (slotsOf wd).length)
      0 = .ok occs)
    (h1 : st ≠ .optimal) (h2 : st ≠ .feasible) :
    generate wd courses teachers sections af st A =
      some (.failure
        "No valid timetable found. Try adjusting constraints or reducing conflicts.") := by
  obtain ⟨occs, hocc⟩ := hok
  unfold generate
  rw [if_neg hc, if_neg hw]
  simp only [hocc]
  rw [if_neg (fun h => h.elim h1 h2)]

/-- Witness for the amended C3 theorem at the concrete fixture. -/
theorem c3_witness :
    generate wdMon3 crsMath1 teaT912 secY1A false .unknown (fun _ => 0) =
      some (.failure
        "No valid timetable found. Try adjusting constraints or reducing conflicts.") :=
  c3_failure_collapsed wdMon3 crsMath1 teaT912 secY1A false .unknown
    (fun _ => 0) (by decide) (by decide) ⟨_, rfl⟩
    (by decide) (by decide)

/-- C4, counterexample: on the one-slot instance the unpadded model is
satisfiable, while enabling free-period padding makes the model
unsatisfiable (the idle occurrences of the default sections of the other
years all carry the placeholder teacher None, so they mutually exclude
one another), refuting the claim that idle occurrences never constrain
the feasibility of the rest of the instance. -/
theorem c4_counterexample :
    (∃ A, Satisfies occsNoPad1 A) ∧ ¬ ∃ A, Satisfies occsPad1 A := by
  constructor
  · exact ⟨fun _ => 0, by decide⟩
  · rintro ⟨A, hmem, hteach, -⟩
    have e : occsPad1 =
        [{ occId := 0, subject := "Math", year := "Year1", sec := "A",
           teacher := "T", duration := 1, domain := [0] },
         { occId := 1, subject := "Free", year := "Year2", sec := "A",
           teacher := "None", duration := 1, domain := [0] },
         { occId := 2, subject := "Free", year := "Year3", sec := "A",
           teacher := "None", duration := 1, domain := [0] },
         { occId := 3, subject := "Free", year := "Year4", sec := "A",
           teacher := "None", duration := 1, domain := [0] }] := by decide
    rw [e] at hmem hteach
    have m1 : A 1 ∈ [0] :=
      hmem { occId := 1, subject := "Free", year := "Year2", sec := "A",
             teacher := "None", duration := 1, domain := [0] } (by simp)
    have m2 : A 2 ∈ [0] :=
      hmem { occId := 2, subject := "Free", year := "Year3", sec := "A",
             teacher := "None", duration := 1, domain := [0] } (by simp)
    simp only [List.mem_singleton] at m1 m2
    rcases List.pairwise_cons.mp hteach with ⟨-, ht1⟩
    rcases List.pairwise_cons.mp ht1 with ⟨ht12, -⟩
    have h12 := ht12 _ (List.mem_cons_self _ _) rfl
    simp only [noOverlap] at h12
    omega

/-- C4, amended: idle occurrences are created with the full clock window
0 to 24 and duration 1, so the availability filter never restricts them;
they all carry the placeholder teacher None, however, so idle occurrences
of different sections mutually exclude one another and enabling padding
can turn a feasible instance infeasible. -/
theorem c4_idle_window (sections : Sections) (req : List (String × Int))
    (n : Nat) (c : PCourse) (hc : c ∈ paddingCourses sections req n) :
    c.subject = "Free" ∧ c.teacher = "None" ∧ c.duration = 1 ∧
      c.start_hr = 0 ∧ c.end_hr = 24 := by
  unfold paddingCourses at hc
  simp only [List.mem_flatMap, List.mem_filterMap] at hc
  obtain ⟨y, -, p, -, hval⟩ := hc
  split at hval
  · cases hval
    exact ⟨rfl, rfl, rfl, rfl, rfl⟩
  · cases hval

/-- Length of one day of emitted hours. -/
theorem dayHours_length (s : Int) (n : Nat) : (dayHours s n).length = n := by
  induction n generalizing s with
  | zero => rfl
  | succ n ih => simp [dayHours, ih]

/-- The lunch skip never emits hour 12. -/
theorem skipLunch_ne_12 (h : Int) : skipLunch h ≠ 12 := by
  unfold skipLunch
  split <;> omega

/-- No emitted hour of a day equals 12. -/
theorem dayHours_ne_12 (s : Int) (n : Nat) : ∀ h ∈ dayHours s n, h ≠ 12 := by
  induction n generalizing s with
  | zero => intro h hh; cases hh
  | succ n ih =>
    intro h hh
    rcases hh with _ | hh
    · exact skipLunch_ne_12 s
    · exact ih _ _ (by assumption)

/-- Length of the slot list of one day. -/
theorem daySlots_length (day : String) (s : Int) (n : Nat) (i0 : Nat) :
    (daySlots day s n i0).length = n := by
  simp [daySlots, dayHours_length]

/-- Every slot of one day carries that day label. -/
theorem daySlots_day (day : String) (s : Int) (n : Nat) (i0 : Nat) :
    ∀ sl ∈ daySlots day s n i0, sl.day = day := by
  intro sl hsl
  simp only [daySlots, List.mem_map] at hsl
  obtain ⟨p, -, rfl⟩ := hsl
  rfl

/-- Every slot of one day carries an hour emitted for that day. -/
theorem daySlots_hour_mem (day : String) (s : Int) (n : Nat) (i0 : Nat) :
    ∀ sl ∈ daySlots day s n i0, sl.hour ∈ dayHours s n := by
  intro sl hsl
  simp only [daySlots, List.mem_map] at hsl
  obtain ⟨p, hp, rfl⟩ := hsl
  exact List.snd_mem_of_mem_enum hp

/-- Every slot of the built table carries the label of some listed day. -/
theorem buildSlots_day_mem (days : List (String × Int × Int)) (i0 : Nat) :
    ∀ sl ∈ buildSlots days i0, sl.day ∈ days.map Prod.fst := by
  induction days generalizing i0 with
  | nil => intro sl h; cases h
  | cons p rest ih =>
    intro sl hsl
    rcases p with ⟨d, h, s⟩
    simp only [buildSlots, List.mem_append] at hsl
    rcases hsl with hsl | hsl
    · simp [daySlots_day d s h.toNat i0 sl hsl]
    · simp [ih _ sl hsl]

/-- No slot of the built table is labeled hour 12. -/
theorem buildSlots_hour_ne_12 (days : List (String × Int × Int)) (i0 : Nat) :
    ∀ sl ∈ buildSlots days i0, sl.hour ≠ 12 := by
  induction days generalizing i0 with
  | nil => intro sl h; cases h
  | cons p rest ih =>
    intro sl hsl
    rcases p with ⟨d, h, s⟩
    simp only [buildSlots, List.mem_append] at hsl
    rcases hsl with hsl | hsl
    · exact dayHours_ne_12 _ _ _ (daySlots_hour_mem d s h.toNat i0 sl hsl)
    · exact ih _ sl hsl

/-- Per-day slot count of the built table: with pairwise distinct day
labels, filtering the table to one listed day returns exactly the
declared count of that day. -/
theorem buildSlots_filter_count (days : List (String × Int × Int)) (i0 : Nat)
    (hnd : (days.map Prod.fst).Nodup) :
    ∀ p ∈ days,
      ((buildSlots days i0).filter (fun sl => sl.day = p.1)).length =
        p.2.1.toNat := by
  induction days generalizing i0 with
  | nil => intro p hp; cases hp
  | cons q rest ih =>
    intro p hp
    rcases q with ⟨d, h, s⟩
    simp only [List.map_cons, List.nodup_cons] at hnd
    simp only [buildSlots, List.filter_append, List.length_append]
    rcases List.mem_cons.mp hp with rfl | hp2
    · have h1 : (daySlots d s h.toNat i0).filter (fun sl => sl.day = d) =
          daySlots d s h.toNat i0 := by
        apply List.filter_eq_self.mpr
        intro sl hsl
        simp [daySlots_day d s h.toNat i0 sl hsl]
      have h2 : (buildSlots rest (i0 + h.toNat)).filter
          (fun sl => sl.day = d) = [] := by
        apply List.filter_eq_nil_iff.mpr
        intro sl hsl
        have := buildSlots_day_mem rest (i0 + h.toNat) sl hsl
        simp only [decide_eq_true_eq]
        intro he
        exact hnd.1 (he ▸ this)
      simp [h1, h2, daySlots_length]
    · have h1 : (daySlots d s h.toNat i0).filter (fun sl => sl.day = p.1) =
          [] := by
        apply List.filter_eq_nil_iff.mpr
        intro sl hsl
        rw [daySlots_day d s h.toNat i0 sl hsl]
        simp only [decide_eq_true_eq]
        intro he
        exact hnd.1 (he ▸ List.mem_map_of_mem Prod.fst hp2)
      rw [h1]
      simp [ih (i0 + h.toNat) hnd.2 p hp2]

/-- The slot indices of one day are the consecutive range starting at the
counter value. -/
theorem daySlots_map_idx (day : String) (s : Int) (n : Nat) (i0 : Nat) :
    (daySlots day s n i0).map Slot.idx = List.range' i0 n := by
  unfold daySlots
  rw [List.map_map]
  have : (Slot.idx ∘ fun p : Nat × Int =>
      ({ idx := i0 + p.1, abbr := dayAbbrev day, ord := p.1 + 1,
         day := day, hour := p.2 } : Slot)) = (fun p => i0 + p.1) := rfl
  rw [this]
  have h2 : ((dayHours s n).enum.map (fun p => i0 + p.1)) =
      ((dayHours s n).enum.map Prod.fst).map (fun k => i0 + k) := by
    rw [List.map_map]; rfl
  rw [h2, List.enum_map_fst, dayHours_length, List.range_eq_range',
    List.map_add_range']
  simp

/-- The slot indices of the whole table are the consecutive range
starting at the counter value. -/
theorem buildSlots_map_idx (days : List (String × Int × Int)) (i0 : Nat) :
    (buildSlots days i0).map Slot.idx =
      List.range' i0 (buildSlots days i0).length := by
  induction days generalizing i0 with
  | nil => rfl
  | cons q rest ih =>
    rcases q with ⟨d, h, s⟩
    simp only [buildSlots, List.map_append, List.length_append]
    rw [daySlots_map_idx, ih, daySlots_length, List.range'_append_1,
      Nat.add_comm]

/-- Claim C5: for every non-empty working-day dict with nonnegative
declared counts, the calendar builder emits no slot labeled hour 12,
every listed day contributes exactly its declared slot count, and the
global slot indices are assigned monotonically across the concatenation:
the table maps position to index as the identity range. -/
theorem c5_calendar (days : List (String × Int × Int))
    (hne : days ≠ []) (hnd : (days.map Prod.fst).Nodup) :
    (∀ sl ∈ buildSlots days 0, sl.hour ≠ 12) ∧
    (∀ p ∈ days,
      ((buildSlots days 0).filter (fun sl => sl.day = p.1)).length =
        p.2.1.toNat) ∧
    (buildSlots days 0).map Slot.idx = List.range (buildSlots days 0).length := by
  refine ⟨buildSlots_hour_ne_12 days 0, buildSlots_filter_count days 0 hnd, ?_⟩
  rw [buildSlots_map_idx, List.range_eq_range']

/-- Witness for C5 at the concrete one-day fixture. -/
theorem c5_witness :
    (∀ sl ∈ buildSlots (buildDayMaps wdMon3) 0, sl.hour ≠ 12) ∧
    (∀ p ∈ buildDayMaps wdMon3,
      ((buildSlots (buildDayMaps wdMon3) 0).filter
        (fun sl => sl.day = p.1)).length = p.2.1.toNat) ∧
    (buildSlots (buildDayMaps wdMon3) 0).map Slot.idx =
      List.range (buildSlots (buildDayMaps wdMon3) 0).length :=
  c5_calendar (buildDayMaps wdMon3) (by decide) (by decide)

/-- When some course of the processing list has an empty domain and a
positive lecture count, occurrence creation fails with the message of the
first such course, whatever the id counter. -/
theorem buildOccs_error_of_bad (slots : List Slot) (pcs : List PCourse)
    (hbad : ∃ c ∈ pcs, allowedVals slots c = [] ∧ 0 < c.lectures) :
    ∃ c ∈ pcs, allowedVals slots c = [] ∧ 0 < c.lectures ∧
      ∀ j, buildOccs slots pcs j = .error (infeasibleMsg c) := by
  induction pcs with
  | nil =>
    obtain ⟨c, hc, -⟩ := hbad
    cases hc
  | cons c0 rest ih =>
    by_cases h0 : allowedVals slots c0 = [] ∧ 0 < c0.lectures
    · refine ⟨c0, List.mem_cons_self _ _, h0.1, h0.2, fun j => ?_⟩
      unfold buildOccs
      rw [if_pos h0]
    · obtain ⟨c, hc, hce, hcl⟩ := hbad
      rcases List.mem_cons.mp hc with rfl | hc2
      · exact absurd ⟨hce, hcl⟩ h0
      · obtain ⟨c', hc', he', hl', herr⟩ := ih ⟨c, hc2, hce, hcl⟩
        refine ⟨c', List.mem_cons_of_mem _ hc', he', hl', fun j => ?_⟩
        unfold buildOccs
        rw [if_neg h0, herr (j + c0.lectures.toNat)]

/-- Every slot of the built table carries the abbreviation of its own
day label. -/
theorem buildSlots_abbr (days : List (String × Int × Int)) (i0 : Nat) :
    ∀ sl ∈ buildSlots days i0, sl.abbr = dayAbbrev sl.day := by
  induction days generalizing i0 with
  | nil => intro sl h; cases h
  | cons q rest ih =>
    intro sl hsl
    rcases q with ⟨d, h, s⟩
    simp only [buildSlots, List.mem_append] at hsl
    rcases hsl with hsl | hsl
    · simp only [daySlots, List.mem_map] at hsl
      obtain ⟨p, -, rfl⟩ := hsl
      rfl
    · exact ih _ sl hsl

/-- With pairwise distinct slot names, the name-keyed day lookup of any
slot of the table returns the lower-cased label of that very slot. -/
theorem slotToDay_eq_of_mem (days : List (String × Int × Int)) (i0 : Nat)
    (hn : ((buildSlots days i0).map
      (fun sl => slotName sl.abbr sl.ord)).Nodup) :
    ∀ sl ∈ buildSlots days i0,
      slotToDay (buildSlots days i0) (slotName sl.abbr sl.ord) =
        some (pyLower sl.day) := by
  intro sl hsl
  unfold slotToDay
  have hmem : sl ∈ (buildSlots days i0).reverse := List.mem_reverse.mpr hsl
  have hsome : ((buildSlots days i0).reverse.find?
      (fun sl2 => decide (slotName sl2.abbr sl2.ord =
        slotName sl.abbr sl.ord))).isSome := by
    rw [List.find?_isSome]
    exact ⟨sl, hmem, by simp⟩
  obtain ⟨sl2, hfind⟩ := Option.isSome_iff_exists.mp hsome
  rw [hfind]
  have hp := List.find?_some hfind
  have hm2 : sl2 ∈ buildSlots days i0 :=
    List.mem_reverse.mp (List.mem_of_find?_eq_some hfind)
  simp only [decide_eq_true_eq] at hp
  have hinj := List.inj_on_of_nodup_map
    (f := fun sl : Slot => slotName sl.abbr sl.ord)
    (l := buildSlots days i0) hn
  have heq : sl2 = sl := hinj hm2 hsl hp
  rw [heq, Option.map_some']

/-- With pairwise distinct lower-cased labels, lower-casing is injective
on the listed day labels. -/
theorem day_lower_inj (days : List (String × Int × Int))
    (hl : (days.map (fun p => pyLower p.1)).Nodup) :
    ∀ d1 ∈ days.map Prod.fst, ∀ d2 ∈ days.map Prod.fst,
      pyLower d1 = pyLower d2 → d1 = d2 := by
  have h := List.inj_on_of_nodup_map (f := pyLower) (l := days.map Prod.fst)
    (by rw [List.map_map]; exact hl)
  intro d1 h1 d2 h2 he
  exact h h1 h2 he

/-- Unfolding of the spec-side condition into its four clauses, the hour
clause being the hour test of the domain loop. -/
theorem specLegal_eq (slots : List Slot) (sh eh d : Int) (s : Nat) :
    specLegal slots sh eh d s =
      (decide (0 ≤ (s : Int) + d - 1) &&
       decide ((s : Int) + d - 1 < (slots.length : Int)) &&
       decide ((slots.get? s).map Slot.day =
         (slots.get? ((s : Int) + d - 1).toNat).map Slot.day) &&
       hoursOk slots sh eh s ((s : Int) + d - 1)) := rfl

/-- Variants of the bridge lemmas phrased over the engine slot table. -/
theorem slotToDay_slotsOf (wd : List RawDay)
    (hn : ((slotsOf wd).map (fun sl => slotName sl.abbr sl.ord)).Nodup) :
    ∀ sl ∈ slotsOf wd,
      slotToDay (slotsOf wd) (slotName sl.abbr sl.ord) =
        some (pyLower sl.day) := by
  unfold slotsOf
  exact slotToDay_eq_of_mem _ 0 hn

/-- Day labels of slots of the engine table come from the day dict. -/
theorem day_mem_slotsOf (wd : List RawDay) :
    ∀ sl ∈ slotsOf wd, sl.day ∈ (buildDayMaps wd).map Prod.fst := by
  unfold slotsOf
  exact buildSlots_day_mem _ 0

/-- C6, counterexample: two independent failures of the claimed
equivalence.  First, with a single two-slot Monday and a course of
duration 0, position 0 is in the computed domain (Python back-indexing
wraps the end position minus one to the last slot of the week), although
the claimed condition fails because 0 + 0 - 1 is not a valid slot index.
Second, with colliding slot names (a twelve-slot Monday followed by day
`M1zzz`, whose slot `M11` overwrites the day binding of Monday's 11th
slot) a duration-2 start at position 10 meets the claimed condition —
slots 10 and 11 both carry day label Monday and every hour is inside the
window — yet the code rejects it, because `slot_to_day` maps the name
`M11` to the later day; the lower-cased labels of that calendar are
pairwise distinct, so only the slot-name condition of the amended
theorem excludes it. -/
theorem c6_counterexample :
    (0 ∈ allowedVals (slotsOf wdMon2)
      { subject := "X", year := "Year1", sec := "A", teacher := "T",
        lectures := 1, duration := 0, start_hr := 9, end_hr := 17 } ∧
    specLegal (slotsOf wdMon2) 9 17 0 0 = false) ∧
    (10 ∉ allowedVals (slotsOf wdC6b) pcC6b ∧
    specLegal (slotsOf wdC6b) 0 24 2 10 = true ∧
    ¬ ((slotsOf wdC6b).map (fun sl => slotName sl.abbr sl.ord)).Nodup ∧
    ((buildDayMaps wdC6b).map (fun p => pyLower p.1)).Nodup) := by
  decide

/-- C6, amended: for every occurrence of positive duration, a calendar
whose slot names are pairwise distinct (the concatenated abbreviation
and position strings keying `slot_to_day` never collide) and whose
lower-cased day labels are pairwise distinct — both true for the seven
standard weekday names — a start position belongs to the computed domain
exactly when (1) the end position is a valid slot index, (2) the start
and end slots carry the same day label, and (3) every covered slot has
its clock hour inside the availability window of the occurrence. -/
theorem c6_domain_iff (wd : List RawDay) (c : PCourse)
    (hdur : 1 ≤ c.duration)
    (hn : ((slotsOf wd).map (fun sl => slotName sl.abbr sl.ord)).Nodup)
    (hl : ((buildDayMaps wd).map (fun p => pyLower p.1)).Nodup)
    (s : Nat) :
    s ∈ allowedVals (slotsOf wd) c ↔
      specLegal (slotsOf wd) c.start_hr c.end_hr c.duration s = true := by
  have h0e : 0 ≤ (s : Int) + c.duration - 1 := by omega
  have hse : (s : Int) ≤ (s : Int) + c.duration - 1 := by omega
  unfold allowedVals
  rw [List.mem_filter, List.mem_range, specLegal_eq]
  simp only [Bool.and_eq_true, decide_eq_true_eq]
  constructor
  · rintro ⟨hs, hcond⟩
    by_cases hge : ((slotsOf wd).length : Int) ≤ (s : Int) + c.duration - 1
    · rw [if_pos hge] at hcond
      exact absurd hcond (by simp)
    rw [if_neg hge, Bool.and_eq_true] at hcond
    obtain ⟨hday, hhours⟩ := hcond
    push_neg at hge
    have hs' : s < (slotsOf wd).length := hs
    have hte : ((s : Int) + c.duration - 1).toNat < (slotsOf wd).length := by
      omega
    have h1 : (slotsOf wd).get? s = some ((slotsOf wd).get ⟨s, hs'⟩) :=
      List.get?_eq_get hs'
    have h2 : (slotsOf wd).get? ((s : Int) + c.duration - 1).toNat =
        some ((slotsOf wd).get ⟨_, hte⟩) := List.get?_eq_get hte
    have hpy : pyElem (slotsOf wd) ((s : Int) + c.duration - 1) =
        some ((slotsOf wd).get ⟨_, hte⟩) := by
      unfold pyElem
      rw [if_pos h0e, h2]
    unfold sameDayOk at hday
    rw [h1, hpy] at hday
    simp only [decide_eq_true_eq] at hday
    rw [slotToDay_slotsOf wd hn _ (List.get?_mem h1),
      slotToDay_slotsOf wd hn _ (List.get?_mem h2)] at hday
    have hdeq := day_lower_inj _ hl _
      (day_mem_slotsOf wd _ (List.get?_mem h1)) _
      (day_mem_slotsOf wd _ (List.get?_mem h2))
      (Option.some_injective _ hday)
    refine ⟨⟨⟨h0e, hge⟩, ?_⟩, hhours⟩
    rw [h1, h2, Option.map_some', Option.map_some', hdeq]
  · rintro ⟨⟨⟨-, hlt⟩, hdayeq⟩, hhours⟩
    have hs' : s < (slotsOf wd).length := by omega
    have hte : ((s : Int) + c.duration - 1).toNat < (slotsOf wd).length := by
      omega
    refine ⟨hs', ?_⟩
    rw [if_neg (by omega), Bool.and_eq_true]
    refine ⟨?_, hhours⟩
    have h1 : (slotsOf wd).get? s = some ((slotsOf wd).get ⟨s, hs'⟩) :=
      List.get?_eq_get hs'
    have h2 : (slotsOf wd).get? ((s : Int) + c.duration - 1).toNat =
        some ((slotsOf wd).get ⟨_, hte⟩) := List.get?_eq_get hte
    have hpy : pyElem (slotsOf wd) ((s : Int) + c.duration - 1) =
        some ((slotsOf wd).get ⟨_, hte⟩) := by
      unfold pyElem
      rw [if_pos h0e, h2]
    rw [h1, h2, Option.map_some', Option.map_some'] at hdayeq
    unfold sameDayOk
    rw [h1, hpy]
    simp only [decide_eq_true_eq]
    rw [slotToDay_slotsOf wd hn _ (List.get?_mem h1),
      slotToDay_slotsOf wd hn _ (List.get?_mem h2)]
    rw [Option.some_inj] at hdayeq ⊢
    rw [hdayeq]

/-- Witness for the amended C6 theorem: on the three-slot Monday fixture
with the 9-to-12 teacher window, the equivalence holds at start 0 for the
duration-1 maths course. -/
theorem c6_witness :
    (0 ∈ allowedVals (slotsOf wdMon3) pcMath912 ↔
      specLegal (slotsOf wdMon3) 9 12 1 0 = true) ∧
    0 ∈ allowedVals (slotsOf wdMon3) pcMath912 :=
  ⟨c6_domain_iff wdMon3 pcMath912 (by decide) (by decide) (by decide) 0,
    by decide⟩

/-- C7, counterexample: on a calendar whose only slot has clock hour 30,
the idle course synthesized for the default section A of Year2 has an
empty domain (hour 30 lies outside 0..24) and a positive lecture count,
and the engine returns the infeasible-domain error naming that idle
course — an idle occurrence with an empty domain does trigger the error,
contrary to the claim. -/
theorem c7_counterexample :
    generate wdH30 crsMath1 teaT2540 secY1A true .optimal (fun _ => 0) =
      some (.failure "No feasible slots for Free (Year Year2, Section A).") := by
  decide

/-- C7, amended: whenever some processed course — idle or not — has an
empty computed domain together with a positive lecture count, the engine
fails before any solver interaction (the result is the same for every
solver status and assignment) with the infeasible-domain error naming the
subject, year and section of the first such course; a course with a
nonpositive lecture count never triggers the error. -/
theorem c7_error_on_empty_domain (wd : List RawDay) (courses : List Course)
    (teachers : List (String × TeacherInfo)) (sections : Sections) (af : Bool)
    (hcrs : courses ≠ []) (hw : wd ≠ [])
    (hbad : ∃ c ∈ processedWithPadding courses teachers sections af
        (slotsOf wd).length,
      allowedVals (slotsOf wd) c = [] ∧ 0 < c.lectures) :
    ∃ c ∈ processedWithPadding courses teachers sections af
        (slotsOf wd).length,
      allowedVals (slotsOf wd) c = [] ∧ 0 < c.lectures ∧
      ∀ st A, generate wd courses teachers sections af st A =
        some (.failure (infeasibleMsg c)) := by
  obtain ⟨c, hc, he, hl, herr⟩ := buildOccs_error_of_bad (slotsOf wd) _ hbad
  refine ⟨c, hc, he, hl, fun st A => ?_⟩
  unfold generate
  rw [if_neg hcrs, if_neg hw]
  simp only [herr 0]

/-- Witness for the amended C7 theorem at the clock-30 fixture. -/
theorem c7_witness :
    ∃ c ∈ processedWithPadding crsMath1 teaT2540 secY1A true
        (slotsOf wdH30).length,
      allowedVals (slotsOf wdH30) c = [] ∧ 0 < c.lectures ∧
      ∀ st A, generate wdH30 crsMath1 teaT2540 secY1A true st A =
        some (.failure (infeasibleMsg c)) :=
  c7_error_on_empty_domain wdH30 crsMath1 teaT2540 secY1A true
    (by decide) (by decide) ⟨freeY2A, by decide, by decide, by decide⟩

/-- Lookup over a map keyed by the element itself. -/
theorem pyLookup_keyed {β : Type} (l : List String) (G : String → β)
    (k : String) :
    pyLookup (l.map (fun y => (y, G y))) k =
      (l.find? (fun y => y = k)).map G := by
  induction l with
  | nil => rfl
  | cons a rest ih =>
    unfold pyLookup at ih ⊢
    simp only [List.map_cons, List.find?_cons]
    by_cases h : a = k
    · simp [h]
    · rw [decide_eq_false h]
      exact ih

/-- Lookup over a map keyed by the first component. -/
theorem pyLookup_fst {β : Type} (l : List (String × String))
    (H : String × String → β) (k : String) :
    pyLookup (l.map (fun p => (p.1, H p))) k =
      (l.find? (fun p => p.1 = k)).map H := by
  induction l with
  | nil => rfl
  | cons a rest ih =>
    unfold pyLookup at ih ⊢
    simp only [List.map_cons, List.find?_cons]
    by_cases h : a.1 = k
    · simp [h]
    · rw [decide_eq_false h]
      exact ih

/-- Updating one key of a self-keyed map with pairwise distinct keys. -/
theorem pyModify_keyed {β : Type} (l : List String) (G : String → β)
    (g : β → β) (k : String) (hnd : l.Nodup) :
    pyModify (l.map (fun y => (y, G y))) k g =
      l.map (fun y => (y, if y = k then g (G y) else G y)) := by
  induction l with
  | nil => rfl
  | cons a rest ih =>
    simp only [List.nodup_cons] at hnd
    simp only [List.map_cons]
    unfold pyModify
    by_cases h : a = k
    · rw [if_pos h, if_pos h]
      congr 1
      symm
      apply List.map_congr_left
      intro b hb
      rw [if_neg]
      intro hbk
      exact hnd.1 (by rw [h, ← hbk]; exact hb)
    · rw [if_neg h, if_neg h, ih hnd.2]

/-- Updating one key of a fst-keyed map with pairwise distinct keys. -/
theorem pyModify_fst {β : Type} (l : List (String × String))
    (H : String × String → β) (g : β → β) (k : String)
    (hnd : (l.map Prod.fst).Nodup) :
    pyModify (l.map (fun p => (p.1, H p))) k g =
      l.map (fun p => (p.1, if p.1 = k then g (H p) else H p)) := by
  induction l with
  | nil => rfl
  | cons a rest ih =>
    simp only [List.map_cons, List.nodup_cons] at hnd
    simp only [List.map_cons]
    unfold pyModify
    by_cases h : a.1 = k
    · rw [if_pos h, if_pos h]
      congr 1
      symm
      apply List.map_congr_left
      intro b hb
      rw [if_neg]
      intro hbk
      exact hnd.1 (by rw [h, ← hbk]; exact List.mem_map_of_mem Prod.fst hb)
    · rw [if_neg h, if_neg h, ih hnd.2]

/-- A membership search by equality finds the element itself. -/
theorem find?_eq_self_of_mem (l : List String) (k : String) (hk : k ∈ l) :
    l.find? (fun y => y = k) = some k := by
  induction l with
  | nil => cases hk
  | cons a rest ih =>
    rw [List.find?_cons]
    by_cases h : a = k
    · simp [h]
    · rw [decide_eq_false h]
      exact ih (by rcases List.mem_cons.mp hk with rfl | hk2
                   · exact absurd rfl h
                   · exact hk2)

/-- A membership search by equality fails exactly off the list. -/
theorem find?_eq_none_of_not_mem (l : List String) (k : String)
    (hk : k ∉ l) : l.find? (fun y => y = k) = none := by
  rw [List.find?_eq_none]
  intro x hx
  simp only [decide_eq_true_eq]
  rintro rfl
  exact hk hx

/-- A first-component search succeeds on a listed key and returns an
element carrying that key. -/
theorem find?_fst_of_mem (l : List (String × String)) (k : String)
    (hk : k ∈ l.map Prod.fst) :
    ∃ p0, l.find? (fun p => p.1 = k) = some p0 ∧ p0.1 = k := by
  induction l with
  | nil => cases hk
  | cons a rest ih =>
    rw [List.find?_cons]
    by_cases h : a.1 = k
    · exact ⟨a, by simp [h], h⟩
    · rw [decide_eq_false h]
      apply ih
      rcases List.mem_cons.mp hk with he | hk2
      · exact absurd he.symm h
      · exact hk2

/-- A first-component search fails off the key list. -/
theorem find?_fst_of_not_mem (l : List (String × String)) (k : String)
    (hk : k ∉ l.map Prod.fst) :
    l.find? (fun p => p.1 = k) = none := by
  rw [List.find?_eq_none]
  intro x hx
  simp only [decide_eq_true_eq]
  intro he
  exact hk (he ▸ List.mem_map_of_mem Prod.fst hx)

/-- The populated response over no occurrences is the skeleton. -/
theorem canonicalResp_nil (slots : List Slot) (sections : Sections)
    (A : Nat → Nat) :
    canonicalResp slots sections [] A = respInit sections := by
  unfold canonicalResp respInit entriesFor
  simp

/-- Appending one occurrence appends at most one entry per bucket. -/
theorem entriesFor_snoc (slots : List Slot) (sections : Sections)
    (l : List Occ) (o : Occ) (A : Nat → Nat) (d0 : String) (e : Entry)
    (hoe : entryOf slots sections o (A o.occId) = some (d0, e)) (y s d : String) :
    entriesFor slots sections (l ++ [o]) A y s d =
      entriesFor slots sections l A y s d ++
        (if o.year = y ∧ o.sec = s ∧ d0 = d then [e] else []) := by
  unfold entriesFor
  rw [List.filterMap_append]
  congr 1
  rw [List.filterMap_cons]
  simp only [hoe]
  by_cases hc : o.year = y ∧ o.sec = s ∧ d0 = d
  · rw [if_pos hc, if_pos hc]
    simp
  · rw [if_neg hc, if_neg hc]
    simp

/-- A skipped occurrence (year or section unknown to the response) leaves
the populated response unchanged. -/
theorem canonical_snoc_skip (slots : List Slot) (sections : Sections)
    (l : List Occ) (o : Occ) (A : Nat → Nat) (d0 : String) (e : Entry)
    (hoe : entryOf slots sections o (A o.occId) = some (d0, e))
    (hbad : ¬ goodOcc sections o) :
    canonicalResp slots sections (l ++ [o]) A =
      canonicalResp slots sections l A := by
  unfold canonicalResp
  apply List.map_congr_left
  intro y hy
  congr 1
  apply List.map_congr_left
  intro p hp
  congr 1
  apply List.map_congr_left
  intro d hd
  congr 1
  rw [entriesFor_snoc slots sections l o A d0 e hoe]
  rw [if_neg, List.append_nil]
  rintro ⟨h1, h2, -⟩
  exact hbad ⟨h1 ▸ hy, by
    rw [h1]
    exact h2 ▸ List.mem_map_of_mem Prod.fst hp⟩

/-- The year-level lookup in the populated response. -/
theorem canonical_lookup_year (slots : List Slot) (sections : Sections)
    (l : List Occ) (A : Nat → Nat) (y : String) (hy : y ∈ years4) :
    pyLookup (canonicalResp slots sections l A) y =
      some ((sectionsGet sections y).map (fun p =>
        (p.1, weekDays.map (fun d =>
          (d, entriesFor slots sections l A y p.1 d))))) := by
  unfold canonicalResp
  rw [pyLookup_keyed, find?_eq_self_of_mem _ _ hy, Option.map_some']

/-- The year-level lookup fails off the four years. -/
theorem canonical_lookup_year_none (slots : List Slot) (sections : Sections)
    (l : List Occ) (A : Nat → Nat) (y : String) (hy : y ∉ years4) :
    pyLookup (canonicalResp slots sections l A) y = none := by
  unfold canonicalResp
  rw [pyLookup_keyed, find?_eq_none_of_not_mem _ _ hy, Option.map_none']

/-- A skipped occurrence (year or section unknown to the response)
passes through the guarded append unchanged. -/
theorem bucketAppend_canonical_skip (slots : List Slot) (sections : Sections)
    (l : List Occ) (A : Nat → Nat) (o : Occ) (d0 : String) (e : Entry)
    (hbad : ¬ goodOcc sections o) :
    bucketAppend (canonicalResp slots sections l A) o.year o.sec d0 e =
      some (canonicalResp slots sections l A) := by
  unfold bucketAppend
  by_cases hy : o.year ∈ years4
  · have hs : o.sec ∉ (sectionsGet sections o.year).map Prod.fst :=
      fun hs => hbad ⟨hy, hs⟩
    rw [canonical_lookup_year slots sections l A _ hy]
    have h2 : pyLookup ((sectionsGet sections o.year).map (fun p =>
        (p.1, weekDays.map (fun d =>
          (d, entriesFor slots sections l A o.year p.1 d))))) o.sec = none := by
      rw [pyLookup_fst, find?_fst_of_not_mem _ _ hs, Option.map_none']
    simp only [h2]
  · rw [canonical_lookup_year_none slots sections l A _ hy]

/-- With the day key missing, the guarded append raises (returns none). -/
theorem bucketAppend_canonical_noday (slots : List Slot) (sections : Sections)
    (l : List Occ) (A : Nat → Nat) (o : Occ) (d0 : String) (e : Entry)
    (hgood : goodOcc sections o) (hd : d0 ∉ weekDays) :
    bucketAppend (canonicalResp slots sections l A) o.year o.sec d0 e =
      none := by
  obtain ⟨hy, hs⟩ := hgood
  unfold bucketAppend
  rw [canonical_lookup_year slots sections l A _ hy]
  obtain ⟨p0, hp0find, hp01⟩ := find?_fst_of_mem _ _ hs
  have h2 : pyLookup ((sectionsGet sections o.year).map (fun p =>
      (p.1, weekDays.map (fun d =>
        (d, entriesFor slots sections l A o.year p.1 d))))) o.sec =
      some (weekDays.map (fun d =>
        (d, entriesFor slots sections l A o.year p0.1 d))) := by
    rw [pyLookup_fst, hp0find, Option.map_some']
  simp only [h2]
  have h3 : pyLookup (weekDays.map (fun d =>
      (d, entriesFor slots sections l A o.year p0.1 d))) d0 = none := by
    rw [pyLookup_keyed, find?_eq_none_of_not_mem _ _ hd, Option.map_none']
  simp only [h3]

/-- The guarded append of a routed occurrence turns the populated
response over `l` into the populated response over `l ++ [o]`. -/
theorem bucketAppend_canonical (slots : List Slot) (sections : Sections)
    (l : List Occ) (A : Nat → Nat) (o : Occ) (d0 : String) (e : Entry)
    (hsec : ((sectionsGet sections o.year).map Prod.fst).Nodup)
    (hgood : goodOcc sections o) (hd : d0 ∈ weekDays)
    (hoe : entryOf slots sections o (A o.occId) = some (d0, e)) :
    bucketAppend (canonicalResp slots sections l A) o.year o.sec d0 e =
      some (canonicalResp slots sections (l ++ [o]) A) := by
  obtain ⟨hy, hs⟩ := hgood
  unfold bucketAppend
  rw [canonical_lookup_year slots sections l A _ hy]
  obtain ⟨p0, hp0find, hp01⟩ := find?_fst_of_mem _ _ hs
  have h2 : pyLookup ((sectionsGet sections o.year).map (fun p =>
      (p.1, weekDays.map (fun d =>
        (d, entriesFor slots sections l A o.year p.1 d))))) o.sec =
      some (weekDays.map (fun d =>
        (d, entriesFor slots sections l A o.year p0.1 d))) := by
    rw [pyLookup_fst, hp0find, Option.map_some']
  simp only [h2]
  have h3 : pyLookup (weekDays.map (fun d =>
      (d, entriesFor slots sections l A o.year p0.1 d))) d0 =
      some (entriesFor slots sections l A o.year p0.1 d0) := by
    rw [pyLookup_keyed, find?_eq_self_of_mem _ _ hd, Option.map_some']
  simp only [h3]
  congr 1
  unfold canonicalResp
  rw [pyModify_keyed _ _ _ _ (by decide : years4.Nodup)]
  apply List.map_congr_left
  intro y hy'
  congr 1
  by_cases hyy : y = o.year
  · subst hyy
    rw [if_pos rfl, pyModify_fst _ _ _ _ hsec]
    apply List.map_congr_left
    intro p hp
    congr 1
    by_cases hps : p.1 = o.sec
    · rw [if_pos hps, pyModify_keyed _ _ _ _ (by decide : weekDays.Nodup)]
      apply List.map_congr_left
      intro d hd'
      congr 1
      rw [entriesFor_snoc slots sections l o A d0 e hoe]
      by_cases hdd : d = d0
      · rw [if_pos hdd, if_pos ⟨rfl, hps.symm, hdd.symm⟩]
      · rw [if_neg hdd, if_neg (fun hcon => hdd hcon.2.2.symm),
          List.append_nil]
    · rw [if_neg hps]
      apply List.map_congr_left
      intro d hd'
      congr 1
      rw [entriesFor_snoc slots sections l o A d0 e hoe,
        if_neg (fun hcon => hps (hcon.2.1.symm)), List.append_nil]
  · rw [if_neg hyy]
    apply List.map_congr_left
    intro p hp
    congr 1
    apply List.map_congr_left
    intro d hd'
    congr 1
    rw [entriesFor_snoc slots sections l o A d0 e hoe,
      if_neg (fun hcon => hyy (hcon.1.symm)), List.append_nil]

/-- Characterization of the population loop: when it completes, the
accumulated response is the populated skeleton, every occurrence resolved
its entry, and the day key of every routed occurrence is a weekday label
(else the loop would have raised).  Section keys are assumed pairwise
distinct per year, as for Python dict keys. -/
theorem assembleRaw_eq (slots : List Slot) (sections : Sections)
    (occs : List Occ) (A : Nat → Nat) (r : Resp)
    (hsec : ∀ y, ((sectionsGet sections y).map Prod.fst).Nodup)
    (h : assembleRaw slots sections occs A = some r) :
    r = canonicalResp slots sections occs A ∧
    ∀ o ∈ occs, ∃ de, entryOf slots sections o (A o.occId) = some de ∧
      (goodOcc sections o → de.1 ∈ weekDays) := by
  unfold assembleRaw at h
  induction occs using List.reverseRecOn generalizing r with
  | nil =>
    simp only [List.foldl_nil, Option.some_inj] at h
    refine ⟨?_, by intro o ho; cases ho⟩
    rw [← h, canonicalResp_nil]
  | append_singleton l o ih =>
    rw [List.foldl_append, List.foldl_cons, List.foldl_nil] at h
    cases hacc : List.foldl (fun acc o =>
        match acc with
        | none => none
        | some r =>
          match entryOf slots sections o (A o.occId) with
          | none => none
          | some de => bucketAppend r o.year o.sec de.1 de.2)
        (some (respInit sections)) l with
    | none =>
      rw [hacc] at h
      exact Option.noConfusion h
    | some rl =>
      rw [hacc] at h
      obtain ⟨hrl, hside⟩ := ih rl hacc
      subst hrl
      cases hoe : entryOf slots sections o (A o.occId) with
      | none =>
        rw [hoe] at h
        exact Option.noConfusion h
      | some de =>
        rw [hoe] at h
        obtain ⟨d0, e⟩ := de
        by_cases hgood : goodOcc sections o
        · by_cases hd : d0 ∈ weekDays
          · have h2 : bucketAppend (canonicalResp slots sections l A)
                o.year o.sec d0 e = some r := h
            rw [bucketAppend_canonical slots sections l A o d0 e
              (hsec o.year) hgood hd hoe] at h2
            obtain rfl := (Option.some_inj.mp h2).symm
            refine ⟨rfl, ?_⟩
            intro o' ho'
            rcases List.mem_append.mp ho' with ho' | ho'
            · exact hside o' ho'
            · rcases List.mem_singleton.mp ho' with rfl
              exact ⟨(d0, e), hoe, fun _ => hd⟩
          · have h2 : bucketAppend (canonicalResp slots sections l A)
                o.year o.sec d0 e = some r := h
            rw [bucketAppend_canonical_noday slots sections l A o d0 e
              hgood hd] at h2
            exact Option.noConfusion h2
        · have h2 : bucketAppend (canonicalResp slots sections l A)
              o.year o.sec d0 e = some r := h
          rw [bucketAppend_canonical_skip slots sections l A o d0 e
            hgood] at h2
          obtain rfl := (Option.some_inj.mp h2).symm
          refine ⟨(canonical_snoc_skip slots sections l o A d0 e hoe
            hgood).symm, ?_⟩
          intro o' ho'
          rcases List.mem_append.mp ho' with ho' | ho'
          · exact hside o' ho'
          · rcases List.mem_singleton.mp ho' with rfl
            exact ⟨(d0, e), hoe, fun hg => absurd hg hgood⟩

/-- Totality of the code-point comparison. -/
theorem charsLe_total : ∀ a b : List Char,
    charsLe a b = true ∨ charsLe b a = true := by
  intro a
  induction a with
  | nil => intro b; left; rfl
  | cons x xs ih =>
    intro b
    cases b with
    | nil => right; rfl
    | cons y ys =>
      unfold charsLe
      rcases Nat.lt_trichotomy x.toNat y.toNat with h | h | h
      · left
        rw [if_pos h]
      · rw [if_neg (by omega), if_neg (by omega), if_neg (by omega),
          if_neg (by omega)]
        exact ih ys
      · right
        rw [if_pos h]

/-- Transitivity of the code-point comparison. -/
theorem charsLe_trans : ∀ a b c : List Char,
    charsLe a b = true → charsLe b c = true → charsLe a c = true := by
  intro a
  induction a with
  | nil => intro b c _ _; rfl
  | cons x xs ih =>
    intro b c hab hbc
    cases b with
    | nil => exact absurd hab (by simp [charsLe])
    | cons y ys =>
      cases c with
      | nil => exact absurd hbc (by simp [charsLe])
      | cons z zs =>
        unfold charsLe at hab hbc ⊢
        rcases Nat.lt_trichotomy x.toNat y.toNat with h1 | h1 | h1
        · rcases Nat.lt_trichotomy y.toNat z.toNat with h2 | h2 | h2
          · rw [if_pos (by omega)]
          · rw [if_pos (by omega)]
          · rw [if_neg (by omega), if_pos (by omega)] at hbc
            exact absurd hbc (by simp)
        · rcases Nat.lt_trichotomy y.toNat z.toNat with h2 | h2 | h2
          · rw [if_pos (by omega)]
          · rw [if_neg (by omega), if_neg (by omega)]
            rw [if_neg (by omega), if_neg (by omega)] at hab hbc
            exact ih ys zs hab hbc
          · rw [if_neg (by omega), if_pos (by omega)] at hbc
            exact absurd hbc (by simp)
        · rw [if_neg (by omega), if_pos (by omega)] at hab
          exact absurd hab (by simp)

instance : IsTotal Entry entryLe :=
  ⟨fun e1 e2 => charsLe_total _ _⟩

instance : IsTrans Entry entryLe :=
  ⟨fun _ _ _ h1 h2 => charsLe_trans _ _ _ h1 h2⟩

/-- Buckets produced by the sorting pass are sorted under the string
key order. -/
theorem sortEntries_sorted (l : List Entry) :
    (sortEntries l).Sorted entryLe :=
  List.sorted_insertionSort entryLe l

/-- Lookup commutes with mapping the values of an association list. -/
theorem pyLookup_map_val {α β : Type} (l : List (String × α)) (f : α → β)
    (k : String) :
    pyLookup (l.map (fun kv => (kv.1, f kv.2))) k =
      (pyLookup l k).map f := by
  induction l with
  | nil => rfl
  | cons a rest ih =>
    unfold pyLookup at ih ⊢
    simp only [List.map_cons, List.find?_cons]
    by_cases h : a.1 = k
    · simp [h]
    · rw [decide_eq_false h]
      exact ih

/-- Bucket access through the sorting pass. -/
theorem getBucket_sortResp (r : Resp) (y s d : String) :
    getBucket (sortResp r) y s d = (getBucket r y s d).map sortEntries := by
  unfold getBucket sortResp
  rw [pyLookup_map_val]
  cases pyLookup r y with
  | none => rfl
  | some sm =>
    simp only [Option.map_some']
    rw [pyLookup_map_val]
    cases pyLookup sm s with
    | none => rfl
    | some dm =>
      simp only [Option.map_some']
      rw [pyLookup_map_val]

/-- Bucket access in the populated response at a valid address. -/
theorem getBucket_canonical_some (slots : List Slot) (sections : Sections)
    (occs : List Occ) (A : Nat → Nat) (y s d : String)
    (hy : y ∈ years4) (hs : s ∈ (sectionsGet sections y).map Prod.fst)
    (hd : d ∈ weekDays) :
    getBucket (canonicalResp slots sections occs A) y s d =
      some (entriesFor slots sections occs A y s d) := by
  unfold getBucket
  rw [canonical_lookup_year _ _ _ _ _ hy]
  obtain ⟨p0, hfind, hp01⟩ := find?_fst_of_mem _ _ hs
  have h2 : pyLookup ((sectionsGet sections y).map (fun p =>
      (p.1, weekDays.map (fun d =>
        (d, entriesFor slots sections occs A y p.1 d))))) s =
      some (weekDays.map (fun d =>
        (d, entriesFor slots sections occs A y p0.1 d))) := by
    rw [pyLookup_fst, hfind, Option.map_some']
  simp only [h2]
  rw [pyLookup_keyed, find?_eq_self_of_mem _ _ hd, Option.map_some', hp01]

/-- Inversion of the driver on a returned schedule: occurrence creation
succeeded, the population loop completed, and the result is the sorting
pass over the populated response. -/
theorem generate_schedule_inv (wd : List RawDay) (courses : List Course)
    (teachers : List (String × TeacherInfo)) (sections : Sections)
    (af : Bool) (st : CpStatus) (A : Nat → Nat) (r : Resp)
    (hgen : generate wd courses teachers sections af st A =
      some (.schedule r)) :
    ∃ occs, buildOccs (slotsOf wd)
      (processedWithPadding courses teachers sections af (slotsOf wd).length)
      0 = .ok occs ∧
      ∃ r0, assembleRaw (slotsOf wd) sections occs A = some r0 ∧
        r = sortResp r0 := by
  unfold generate at hgen
  by_cases hc : courses = []
  · rw [if_pos hc] at hgen
    exact absurd (Option.some_inj.mp hgen) (by simp)
  rw [if_neg hc] at hgen
  by_cases hw : wd = []
  · rw [if_pos hw] at hgen
    exact absurd (Option.some_inj.mp hgen) (by simp)
  rw [if_neg hw] at hgen
  cases hb : buildOccs (slotsOf wd)
      (processedWithPadding courses teachers sections af (slotsOf wd).length)
      0 with
  | error m =>
    rw [hb] at hgen
    exact absurd (Option.some_inj.mp hgen) (by simp)
  | ok occs =>
    rw [hb] at hgen
    refine ⟨occs, rfl, ?_⟩
    have hgen2 : (if st = CpStatus.optimal ∨ st = CpStatus.feasible then
        (assembleRaw (slotsOf wd) sections occs A).map
          (fun r0 => GenResult.schedule (sortResp r0))
      else some (GenResult.failure
        "No valid timetable found. Try adjusting constraints or reducing conflicts.")) =
        some (GenResult.schedule r) := hgen
    by_cases hst : st = CpStatus.optimal ∨ st = CpStatus.feasible
    · rw [if_pos hst] at hgen2
      cases ha : assembleRaw (slotsOf wd) sections occs A with
      | none =>
        rw [ha] at hgen2
        exact Option.noConfusion hgen2
      | some r0 =>
        rw [ha, Option.map_some'] at hgen2
        have := Option.some_inj.mp hgen2
        exact ⟨r0, rfl, (GenResult.schedule.inj this).symm⟩
    · rw [if_neg hst] at hgen2
      exact absurd (Option.some_inj.mp hgen2) (by simp)

/-- A successful lookup returns the value of a listed pair with the
searched key. -/
theorem pyLookup_mem {α : Type} (l : List (String × α)) (k : String) (v : α)
    (h : pyLookup l k = some v) : ∃ p ∈ l, p.1 = k ∧ p.2 = v := by
  unfold pyLookup at h
  cases hf : l.find? (fun p => p.1 = k) with
  | none =>
    rw [hf] at h
    exact Option.noConfusion h
  | some p =>
    rw [hf, Option.map_some'] at h
    have hp := List.find?_some hf
    simp only [decide_eq_true_eq] at hp
    exact ⟨p, List.mem_of_find?_eq_some hf, hp, Option.some_inj.mp h⟩

/-- Distinct section keys per year follow from distinct keys in every
stored sections entry (the Python dict guarantee), the default entry
having the single key A. -/
theorem sectionsGet_nodup (sections : Sections)
    (h : ∀ p ∈ sections, (p.2.map Prod.fst).Nodup) :
    ∀ y, ((sectionsGet sections y).map Prod.fst).Nodup := by
  intro y
  unfold sectionsGet
  cases hp : pyLookup sections y with
  | none => decide
  | some m =>
    simp only [Option.getD_some]
    obtain ⟨p, hpm, -, hpv⟩ := pyLookup_mem sections y m hp
    exact hpv ▸ h p hpm

/-- C9, counterexample: with a Monday starting at clock 99, the two
entries of the Year1 section A bucket are ordered by the formatted time
string, where the hour-100 string precedes the hour-99 string, so the
bucket is not sorted ascending by start clock time. -/
theorem c9_counterexample :
    Satisfies occs99 (fun i => i) ∧
    ∃ r, generate wdMon99 crsDuo teaDuo secY1A false .feasible (fun i => i) =
        some (.schedule r) ∧
      ∃ lb, getBucket r "Year1" "A" "monday" = some lb ∧
        ¬ lb.Sorted (fun e1 e2 => e1.start_hr ≤ e2.start_hr) :=
  ⟨by decide, _, rfl, _, rfl, by decide⟩

/-- C9, amended: every bucket of a returned schedule is sorted ascending
by the zero-padded start-time string (the Python sort key, which matches
numeric clock order only for hours between 0 and 99), and every section
of the response carries a bucket for each of the seven days, empty days
included. -/
theorem c9_sorted_buckets (wd : List RawDay) (courses : List Course)
    (teachers : List (String × TeacherInfo)) (sections : Sections)
    (af : Bool) (st : CpStatus) (A : Nat → Nat) (r : Resp)
    (hsec : ∀ y, ((sectionsGet sections y).map Prod.fst).Nodup)
    (hgen : generate wd courses teachers sections af st A =
      some (.schedule r)) :
    (∀ y ∈ years4, ∀ s ∈ (sectionsGet sections y).map Prod.fst,
      ∀ d ∈ weekDays, (getBucket r y s d).isSome) ∧
    (∀ y s d lb, getBucket r y s d = some lb → lb.Sorted entryLe) := by
  obtain ⟨occs, -, r0, ha, rfl⟩ :=
    generate_schedule_inv wd courses teachers sections af st A r hgen
  obtain ⟨rfl, -⟩ := assembleRaw_eq (slotsOf wd) sections occs A r0 hsec ha
  constructor
  · intro y hy s hs d hd
    rw [getBucket_sortResp,
      getBucket_canonical_some (slotsOf wd) sections occs A y s d hy hs hd]
    rfl
  · intro y s d lb hlb
    rw [getBucket_sortResp] at hlb
    cases hb : getBucket (canonicalResp (slotsOf wd) sections occs A) y s d with
    | none =>
      rw [hb] at hlb
      exact Option.noConfusion hlb
    | some l0 =>
      rw [hb, Option.map_some'] at hlb
      obtain rfl := (Option.some_inj.mp hlb).symm
      exact sortEntries_sorted l0

/-- Witness for the amended C9 theorem at the three-slot fixture. -/
theorem c9_witness :
    (∀ y ∈ years4, ∀ s ∈ (sectionsGet secY1A y).map Prod.fst,
      ∀ d ∈ weekDays, (getBucket respMon3 y s d).isSome) ∧
    (∀ y s d lb, getBucket respMon3 y s d = some lb →
      lb.Sorted entryLe) :=
  c9_sorted_buckets wdMon3 crsMath1 teaT912 secY1A false .feasible
    (fun _ => 0) respMon3 (sectionsGet_nodup secY1A (by decide)) rfl

/-- Splitting a pointwise append under flatMap, up to permutation. -/
theorem flatMap_append_perm {α β : Type} (l : List α) (f g : α → List β) :
    (l.flatMap (fun a => f a ++ g a)).Perm (l.flatMap f ++ l.flatMap g) := by
  induction l with
  | nil => exact List.Perm.refl _
  | cons a rest ih =>
    simp only [List.flatMap_cons]
    calc (f a ++ g a) ++ rest.flatMap (fun x => f x ++ g x)
        |>.Perm ((f a ++ g a) ++ (rest.flatMap f ++ rest.flatMap g)) :=
          ih.append_left _
      _ |>.Perm ((f a ++ rest.flatMap f) ++ (g a ++ rest.flatMap g)) := by
          simp only [List.append_assoc]
          apply List.Perm.append_left
          calc (g a ++ (rest.flatMap f ++ rest.flatMap g))
              |>.Perm ((g a ++ rest.flatMap f) ++ rest.flatMap g) := by
                rw [List.append_assoc]
            _ |>.Perm ((rest.flatMap f ++ g a) ++ rest.flatMap g) :=
                (List.perm_append_comm).append_right _
            _ |>.Perm (rest.flatMap f ++ (g a ++ rest.flatMap g)) := by
                rw [List.append_assoc]

/-- Flattened form of the populated response. -/
theorem allEntries_canonical (slots : List Slot) (sections : Sections)
    (occs : List Occ) (A : Nat → Nat) :
    allEntries (canonicalResp slots sections occs A) =
      years4.flatMap (fun y => (sectionsGet sections y).flatMap (fun p =>
        weekDays.flatMap (fun d =>
          (entriesFor slots sections occs A y p.1 d).map (fun e => (d, e))))) := by
  unfold allEntries canonicalResp
  simp only [List.flatMap_map]

/-- The sorting pass permutes the flattened entries. -/
theorem allEntries_sortResp (r : Resp) :
    (allEntries (sortResp r)).Perm (allEntries r) := by
  unfold allEntries sortResp
  rw [List.flatMap_map]
  apply List.Perm.flatMap_left
  intro ysm _
  rw [List.flatMap_map]
  apply List.Perm.flatMap_left
  intro sdm _
  rw [List.flatMap_map]
  apply List.Perm.flatMap_left
  intro dl _
  exact (List.perm_insertionSort entryLe dl.2).map _

/-- A flat map collapses to its only nonempty fibre. -/
theorem flatMap_single {α β : Type} (l : List α) (F : α → List β) (a0 : α)
    (h0 : a0 ∈ l) (hnd : l.Nodup) (hother : ∀ a ∈ l, a ≠ a0 → F a = []) :
    l.flatMap F = F a0 := by
  induction l with
  | nil => cases h0
  | cons a rest ih =>
    rw [List.flatMap_cons]
    rcases List.mem_cons.mp h0 with rfl | h0'
    · have hrest : rest.flatMap F = [] := by
        rw [List.flatMap_eq_nil_iff]
        intro a ha
        exact hother a (List.mem_cons_of_mem _ ha)
          (fun he => (List.nodup_cons.mp hnd).1 (he ▸ ha))
      rw [hrest, List.append_nil]
    · rw [hother a (List.mem_cons_self _ _)
        (fun he => (List.nodup_cons.mp hnd).1 (he ▸ h0')), List.nil_append]
      exact ih h0' (List.nodup_cons.mp hnd).2
        (fun a ha hne => hother a (List.mem_cons_of_mem _ ha) hne)

/-- The extra flattened entries contributed by one appended occurrence:
exactly its own tagged entry when the occurrence is routed and its day is
a weekday, nothing otherwise. -/
theorem extraEntries_eq (sections : Sections) (o : Occ) (d0 : String)
    (e : Entry) (hsec : ((sectionsGet sections o.year).map Prod.fst).Nodup) :
    (years4.flatMap (fun y => (sectionsGet sections y).flatMap (fun p =>
      weekDays.flatMap (fun d =>
        ((if o.year = y ∧ o.sec = p.1 ∧ d0 = d then [e] else []).map
          (fun e' => (d, e'))))))) =
      (if goodOcc sections o ∧ d0 ∈ weekDays then [(d0, e)] else []) := by
  by_cases hg : goodOcc sections o ∧ d0 ∈ weekDays
  · obtain ⟨⟨hy, hs⟩, hd⟩ := hg
    obtain ⟨p0, hp0m, hp01⟩ := List.mem_map.mp hs
    rw [if_pos ⟨⟨hy, hs⟩, hd⟩]
    rw [flatMap_single years4 _ o.year hy (by decide)]
    · rw [flatMap_single (sectionsGet sections o.year) _ p0 hp0m
        (hsec.of_map Prod.fst)]
      · rw [flatMap_single weekDays _ d0 hd (by decide)]
        · rw [if_pos ⟨rfl, hp01.symm, rfl⟩]
          rfl
        · intro d _ hne
          rw [if_neg (fun hc => hne hc.2.2.symm)]
          rfl
      · intro p hp hne
        rw [List.flatMap_eq_nil_iff]
        intro d _
        rw [if_neg, List.map_nil]
        rintro ⟨-, hps, -⟩
        exact hne (List.inj_on_of_nodup_map hsec hp hp0m (by rw [← hps, hp01]))
    · intro y _ hne
      rw [List.flatMap_eq_nil_iff]
      intro p _
      rw [List.flatMap_eq_nil_iff]
      intro d _
      rw [if_neg (fun hc => hne hc.1.symm), List.map_nil]
  · rw [if_neg hg, List.flatMap_eq_nil_iff]
    intro y hy
    rw [List.flatMap_eq_nil_iff]
    intro p hp
    rw [List.flatMap_eq_nil_iff]
    intro d hd
    rw [if_neg, List.map_nil]
    rintro ⟨h1, h2, h3⟩
    exact hg ⟨⟨h1 ▸ hy, by rw [h1]; exact h2 ▸ List.mem_map_of_mem Prod.fst hp⟩,
      h3 ▸ hd⟩

/-- Appending one occurrence appends, up to permutation, at most its own
tagged entry to the flattened response. -/
theorem allEntries_canonical_snoc (slots : List Slot) (sections : Sections)
    (l : List Occ) (o : Occ) (A : Nat → Nat) (d0 : String) (e : Entry)
    (hsec : ((sectionsGet sections o.year).map Prod.fst).Nodup)
    (hoe : entryOf slots sections o (A o.occId) = some (d0, e)) :
    (allEntries (canonicalResp slots sections (l ++ [o]) A)).Perm
      (allEntries (canonicalResp slots sections l A) ++
        (if goodOcc sections o ∧ d0 ∈ weekDays then [(d0, e)] else [])) := by
  rw [allEntries_canonical, allEntries_canonical]
  have h1 : (years4.flatMap (fun y => (sectionsGet sections y).flatMap (fun p =>
      weekDays.flatMap (fun d =>
        (entriesFor slots sections (l ++ [o]) A y p.1 d).map
          (fun e' => (d, e')))))) =
      years4.flatMap (fun y => (sectionsGet sections y).flatMap (fun p =>
        weekDays.flatMap (fun d =>
          (entriesFor slots sections l A y p.1 d).map (fun e' => (d, e')) ++
          ((if o.year = y ∧ o.sec = p.1 ∧ d0 = d then [e] else []).map
            (fun e' => (d, e')))))) := by
    simp only [entriesFor_snoc slots sections l o A d0 e hoe, List.map_append]
  rw [h1, ← extraEntries_eq sections o d0 e hsec]
  calc years4.flatMap (fun y => (sectionsGet sections y).flatMap (fun p =>
        weekDays.flatMap (fun d =>
          (entriesFor slots sections l A y p.1 d).map (fun e' => (d, e')) ++
          ((if o.year = y ∧ o.sec = p.1 ∧ d0 = d then [e] else []).map
            (fun e' => (d, e'))))))
      |>.Perm (years4.flatMap (fun y =>
          (sectionsGet sections y).flatMap (fun p =>
            weekDays.flatMap (fun d =>
              (entriesFor slots sections l A y p.1 d).map
                (fun e' => (d, e'))) ++
            weekDays.flatMap (fun d =>
              ((if o.year = y ∧ o.sec = p.1 ∧ d0 = d then [e] else []).map
                (fun e' => (d, e'))))))) := by
        apply List.Perm.flatMap_left
        intro y _
        apply List.Perm.flatMap_left
        intro p _
        exact flatMap_append_perm weekDays _ _
    _ |>.Perm (years4.flatMap (fun y =>
          (sectionsGet sections y).flatMap (fun p =>
            weekDays.flatMap (fun d =>
              (entriesFor slots sections l A y p.1 d).map
                (fun e' => (d, e')))) ++
          (sectionsGet sections y).flatMap (fun p =>
            weekDays.flatMap (fun d =>
              ((if o.year = y ∧ o.sec = p.1 ∧ d0 = d then [e] else []).map
                (fun e' => (d, e'))))))) := by
        apply List.Perm.flatMap_left
        intro y _
        exact flatMap_append_perm _ _ _
    _ |>.Perm _ := flatMap_append_perm years4 _ _

/-- The empty skeleton flattens to no entries. -/
theorem allEntries_respInit (sections : Sections) :
    allEntries (respInit sections) = [] := by
  unfold allEntries respInit
  simp [List.flatMap_map]

/-- The flattened populated response holds exactly one entry per routed
occurrence. -/
theorem length_allEntries_canonical (slots : List Slot) (sections : Sections)
    (occs : List Occ) (A : Nat → Nat)
    (hsec : ∀ y, ((sectionsGet sections y).map Prod.fst).Nodup)
    (hside : ∀ o ∈ occs, ∃ de, entryOf slots sections o (A o.occId) = some de ∧
      (goodOcc sections o → de.1 ∈ weekDays)) :
    (allEntries (canonicalResp slots sections occs A)).length =
      (occs.filter (fun o => decide (goodOcc sections o))).length := by
  induction occs using List.reverseRecOn with
  | nil =>
    rw [canonicalResp_nil, allEntries_respInit]
    rfl
  | append_singleton l o ih =>
    obtain ⟨de, hoe, hgd⟩ := hside o (by simp)
    obtain ⟨d0, e⟩ := de
    have hperm := allEntries_canonical_snoc slots sections l o A d0 e
      (hsec o.year) hoe
    rw [hperm.length_eq, List.length_append, List.filter_append,
      List.length_append,
      ih (fun o' ho' => hside o' (List.mem_append_left _ ho'))]
    congr 1
    by_cases hg : goodOcc sections o
    · rw [if_pos ⟨hg, hgd hg⟩]
      simp [List.filter, hg]
    · rw [if_neg (fun hc => hg hc.1)]
      simp [List.filter, hg]

/-- Claim C10: a solved occurrence whose year is not one of the four
hard-coded labels, or whose section is not a key of the sections entry of
its year (default section A), contributes no schedule entry: the
returned schedule holds exactly one entry per routed occurrence, and
every entry of the schedule stems from a routed occurrence; the schedule
is still returned rather than an error. -/
theorem c10_omitted (wd : List RawDay) (courses : List Course)
    (teachers : List (String × TeacherInfo)) (sections : Sections)
    (af : Bool) (st : CpStatus) (A : Nat → Nat) (r : Resp)
    (hsec : ∀ p ∈ sections, (p.2.map Prod.fst).Nodup)
    (hgen : generate wd courses teachers sections af st A =
      some (.schedule r)) :
    ∃ occs, buildOccs (slotsOf wd)
      (processedWithPadding courses teachers sections af (slotsOf wd).length)
      0 = .ok occs ∧
      totalCount r = (occs.filter (fun o => decide (goodOcc sections o))).length ∧
      ∀ p ∈ allEntries r, ∃ o ∈ occs, goodOcc sections o ∧
        entryOf (slotsOf wd) sections o (A o.occId) = some p := by
  have hsec' := sectionsGet_nodup sections hsec
  obtain ⟨occs, hb, r0, ha, rfl⟩ :=
    generate_schedule_inv wd courses teachers sections af st A r hgen
  obtain ⟨rfl, hside⟩ := assembleRaw_eq (slotsOf wd) sections occs A r0 hsec' ha
  refine ⟨occs, hb, ?_, ?_⟩
  · unfold totalCount
    rw [(allEntries_sortResp _).length_eq]
    exact length_allEntries_canonical (slotsOf wd) sections occs A hsec' hside
  · intro p hp
    have hp2 : p ∈ allEntries (canonicalResp (slotsOf wd) sections occs A) :=
      (allEntries_sortResp _).mem_iff.mp hp
    rw [allEntries_canonical] at hp2
    simp only [List.mem_flatMap, List.mem_map] at hp2
    obtain ⟨y, hy, q, hq, d, hd, e, he, rfl⟩ := hp2
    unfold entriesFor at he
    rw [List.mem_filterMap] at he
    obtain ⟨o, ho, hoe⟩ := he
    cases hoe2 : entryOf (slotsOf wd) sections o (A o.occId) with
    | none =>
      rw [hoe2] at hoe
      exact Option.noConfusion hoe
    | some de =>
      obtain ⟨de1, de2⟩ := de
      rw [hoe2] at hoe
      have hoe3 : (if o.year = y ∧ o.sec = q.1 ∧ de1 = d then some de2
          else none) = some e := hoe
      by_cases hc : o.year = y ∧ o.sec = q.1 ∧ de1 = d
      · rw [if_pos hc] at hoe3
        have he2 : de2 = e := Option.some_inj.mp hoe3
        refine ⟨o, ho, ⟨hc.1 ▸ hy, ?_⟩, ?_⟩
        · rw [hc.1]
          exact hc.2.1 ▸ List.mem_map_of_mem Prod.fst hq
        · rw [hoe2, hc.2.2, he2]
      · rw [if_neg hc] at hoe3
        exact Option.noConfusion hoe3

/-- Witness for C10 at the three-slot fixture. -/
theorem c10_witness :
    ∃ occs, buildOccs (slotsOf wdMon3)
      (processedWithPadding crsMath1 teaT912 secY1A false
        (slotsOf wdMon3).length) 0 = .ok occs ∧
      totalCount respMon3 =
        (occs.filter (fun o => decide (goodOcc secY1A o))).length ∧
      ∀ p ∈ allEntries respMon3, ∃ o ∈ occs, goodOcc secY1A o ∧
        entryOf (slotsOf wdMon3) secY1A o ((fun _ => 0) o.occId) = some p :=
  c10_omitted wdMon3 crsMath1 teaT912 secY1A false .feasible (fun _ => 0)
    respMon3 (by decide) rfl

/-- On success, occurrence creation yields the closed-form expansion. -/
theorem buildOccs_ok_eq (slots : List Slot) :
    ∀ (pcs : List PCourse) (i : Nat) (occs : List Occ),
      buildOccs slots pcs i = .ok occs → occs = expandOccs slots pcs i := by
  intro pcs
  induction pcs with
  | nil =>
    intro i occs h
    unfold buildOccs at h
    exact (Except.ok.inj h).symm
  | cons c rest ih =>
    intro i occs h
    unfold buildOccs at h
    by_cases hbad : allowedVals slots c = [] ∧ 0 < c.lectures
    · rw [if_pos hbad] at h
      exact Except.noConfusion h
    · rw [if_neg hbad] at h
      cases hrec : buildOccs slots rest (i + c.lectures.toNat) with
      | error m =>
        rw [hrec] at h
        exact Except.noConfusion h
      | ok os =>
        rw [hrec] at h
        unfold expandOccs
        rw [← ih (i + c.lectures.toNat) os hrec]
        exact (Except.ok.inj h).symm

/-- Every expanded occurrence stems from a listed course and copies its
routing fields, duration and computed domain. -/
theorem mem_expandOccs (slots : List Slot) :
    ∀ (pcs : List PCourse) (i : Nat) (o : Occ), o ∈ expandOccs slots pcs i →
      ∃ c ∈ pcs, o.year = c.year ∧ o.sec = c.sec ∧ o.teacher = c.teacher ∧
        o.duration = c.duration ∧ o.domain = allowedVals slots c := by
  intro pcs
  induction pcs with
  | nil => intro i o h; cases h
  | cons c rest ih =>
    intro i o h
    unfold expandOccs at h
    rcases List.mem_append.mp h with h | h
    · obtain ⟨k, -, rfl⟩ := List.mem_map.mp h
      exact ⟨c, List.mem_cons_self _ _, rfl, rfl, rfl, rfl, rfl⟩
    · obtain ⟨c', hc', hf⟩ := ih _ o h
      exact ⟨c', List.mem_cons_of_mem _ hc', hf⟩

/-- Duration mass of the expansion restricted to one year and section. -/
theorem expandOccs_filter_sum (slots : List Slot) (Y S : String) :
    ∀ (pcs : List PCourse) (i : Nat),
      (((expandOccs slots pcs i).filter
          (fun o => decide (o.year = Y ∧ o.sec = S))).map
        (fun o => o.duration)).sum =
      ((pcs.filter (fun c => decide (c.year = Y ∧ c.sec = S))).map
        (fun c => (c.lectures.toNat : Int) * c.duration)).sum := by
  intro pcs
  induction pcs with
  | nil => intro i; rfl
  | cons c rest ih =>
    intro i
    unfold expandOccs
    rw [List.filter_append, List.map_append, List.sum_append, ih]
    rw [List.filter_cons]
    by_cases hc : c.year = Y ∧ c.sec = S
    · rw [if_pos (by simpa using hc)]
      have h1 : ((List.range c.lectures.toNat).map (fun k =>
          ({ occId := i + k, subject := c.subject, year := c.year,
             sec := c.sec, teacher := c.teacher, duration := c.duration,
             domain := allowedVals slots c } : Occ))).filter
            (fun o => decide (o.year = Y ∧ o.sec = S)) =
          (List.range c.lectures.toNat).map (fun k =>
          ({ occId := i + k, subject := c.subject, year := c.year,
             sec := c.sec, teacher := c.teacher, duration := c.duration,
             domain := allowedVals slots c } : Occ)) := by
        apply List.filter_eq_self.mpr
        intro o ho
        obtain ⟨k, -, rfl⟩ := List.mem_map.mp ho
        simpa using hc
      rw [h1, List.map_map, List.map_cons, List.sum_cons]
      have h2 : ((List.range c.lectures.toNat).map
          ((fun o : Occ => o.duration) ∘ (fun k =>
            ({ occId := i + k, subject := c.subject, year := c.year,
               sec := c.sec, teacher := c.teacher, duration := c.duration,
               domain := allowedVals slots c } : Occ)))).sum =
          (c.lectures.toNat : Int) * c.duration := by
        have : ((fun o : Occ => o.duration) ∘ (fun k : Nat =>
            ({ occId := i + k, subject := c.subject, year := c.year,
               sec := c.sec, teacher := c.teacher, duration := c.duration,
               domain := allowedVals slots c } : Occ))) =
            (fun _ : Nat => c.duration) := rfl
        rw [this, List.map_const', List.sum_replicate, List.length_range,
          nsmul_eq_mul]
      rw [h2]
    · rw [if_neg (by simpa using hc)]
      have h1 : ((List.range c.lectures.toNat).map (fun k =>
          ({ occId := i + k, subject := c.subject, year := c.year,
             sec := c.sec, teacher := c.teacher, duration := c.duration,
             domain := allowedVals slots c } : Occ))).filter
            (fun o => decide (o.year = Y ∧ o.sec = S)) = [] := by
        apply List.filter_eq_nil_iff.mpr
        intro o ho
        obtain ⟨k, -, rfl⟩ := List.mem_map.mp ho
        simpa using hc
      rw [h1]
      simp

/-- A member of a computed domain fits inside the slot table. -/
theorem mem_allowedVals_fit (slots : List Slot) (c : PCourse) (s : Nat)
    (h : s ∈ allowedVals slots c) :
    s < slots.length ∧ (s : Int) + c.duration ≤ (slots.length : Int) := by
  unfold allowedVals at h
  rw [List.mem_filter, List.mem_range] at h
  refine ⟨h.1, ?_⟩
  by_contra hgt
  push_neg at hgt
  have h2 := h.2
  rw [if_pos (by omega)] at h2
  exact absurd h2 (by simp)

/-- Inversion of the entry constructor. -/
theorem entryOf_inv (slots : List Slot) (sections : Sections) (o : Occ)
    (start : Nat) (d0 : String) (e : Entry)
    (h : entryOf slots sections o start = some (d0, e)) :
    ∃ sl, slots.get? start = some sl ∧
      slotToDay slots (slotName sl.abbr sl.ord) = some d0 ∧
      e.start_hr = sl.hour ∧ e.end_hr = sl.hour + o.duration ∧
      e.teacher = o.teacher := by
  unfold entryOf at h
  split at h
  · exact Option.noConfusion h
  · rename_i sl hg
    split at h
    · exact Option.noConfusion h
    · rename_i day hs
      have h2 := Option.some_inj.mp h
      rw [Prod.mk.injEq] at h2
      obtain ⟨hd, he⟩ := h2
      refine ⟨sl, hg, hd ▸ hs, ?_, ?_, ?_⟩
      · rw [← he]
      · rw [← he]
      · rw [← he]

/-- Summing an indicator over a duplicate-free list. -/
theorem sum_ite_int (l : List String) (hnd : l.Nodup) (d0 : String) (v : Int) :
    (l.map (fun d => if d0 = d then v else 0)).sum =
      if d0 ∈ l then v else 0 := by
  induction l with
  | nil => simp
  | cons a rest ih =>
    simp only [List.map_cons, List.sum_cons, List.nodup_cons] at hnd ⊢
    by_cases h : d0 = a
    · rw [if_pos h, if_pos (by rw [h]; exact List.mem_cons_self _ _)]
      have : d0 ∉ rest := h ▸ hnd.1
      rw [ih hnd.2, if_neg this]
      ring
    · rw [if_neg h, ih hnd.2]
      by_cases h2 : d0 ∈ rest
      · rw [if_pos h2, if_pos (List.mem_cons_of_mem _ h2)]
        ring
      · rw [if_neg h2, if_neg (by
          intro hm
          rcases List.mem_cons.mp hm with rfl | hm2
          · exact h rfl
          · exact h2 hm2)]
        ring

/-- Lookup through a dict upsert. -/
theorem pyLookup_upsert {α : Type} (l : List (String × α)) (k : String)
    (v : α) (k' : String) :
    pyLookup (pyUpsert l k v) k' =
      if k' = k then some v else pyLookup l k' := by
  induction l with
  | nil =>
    unfold pyUpsert pyLookup
    by_cases h : k' = k
    · subst h
      simp
    · rw [if_neg h, List.find?_cons, decide_eq_false (fun he => h he.symm)]
  | cons a rest ih =>
    unfold pyUpsert
    by_cases h : a.1 = k
    · rw [if_pos h]
      by_cases h2 : k' = k
      · unfold pyLookup
        rw [List.find?_cons, decide_eq_true (show (k, v).1 = k' from h2.symm),
          if_pos h2]
        rfl
      · unfold pyLookup
        rw [List.find?_cons,
          decide_eq_false (fun he : (k, v).1 = k' => h2 he.symm),
          if_neg h2, List.find?_cons,
          decide_eq_false (fun he : a.1 = k' => h2 (he.symm.trans h))]
    · rw [if_neg h]
      unfold pyLookup at ih ⊢
      rw [List.find?_cons]
      by_cases h2 : a.1 = k'
      · have hk : ¬ k' = k := fun he => h (h2.trans he)
        rw [decide_eq_true h2, if_neg hk, List.find?_cons, decide_eq_true h2]
      · rw [decide_eq_false h2, ih]
        by_cases h3 : k' = k
        · rw [if_pos h3, if_pos h3]
        · rw [if_neg h3, if_neg h3, List.find?_cons, decide_eq_false h2]

/-- The requirements dict returns the demand mass of one section key. -/
theorem sectionReq_lookup (pcs : List PCourse) (k : String) :
    (pyLookup (sectionReq pcs) k).getD 0 =
      ((pcs.filter (fun c => decide (sectionKey c.year c.sec = k))).map
        (fun c => c.lectures * c.duration)).sum := by
  suffices h : ∀ acc : List (String × Int),
      (pyLookup (pcs.foldl (fun acc c =>
        let k0 := sectionKey c.year c.sec
        pyUpsert acc k0 ((pyLookup acc k0).getD 0 + c.lectures * c.duration))
        acc) k).getD 0 =
      (pyLookup acc k).getD 0 +
        ((pcs.filter (fun c => decide (sectionKey c.year c.sec = k))).map
          (fun c => c.lectures * c.duration)).sum by
    have h2 := h []
    unfold sectionReq
    rw [h2]
    simp [pyLookup]
  induction pcs with
  | nil =>
    intro acc
    simp
  | cons c rest ih =>
    intro acc
    rw [List.foldl_cons, List.filter_cons]
    by_cases hc : sectionKey c.year c.sec = k
    · rw [if_pos (by simpa using hc), List.map_cons, List.sum_cons, ih]
      rw [pyLookup_upsert]
      rw [if_pos hc.symm, hc]
      simp only [Option.getD_some]
      ring
    · rw [if_neg (by simpa using hc), ih, pyLookup_upsert,
        if_neg (fun he => hc he.symm)]

/-- Filtering distributes over a flat map. -/
theorem filter_flatMap {α β : Type} (l : List α) (f : α → List β)
    (p : β → Bool) :
    (l.flatMap f).filter p = l.flatMap (fun a => (f a).filter p) := by
  induction l with
  | nil => rfl
  | cons a rest ih =>
    rw [List.flatMap_cons, List.filter_append, ih, List.flatMap_cons]

/-- No section-tagged output survives the filter when the searched key is
absent. -/
theorem filter_filterMap_sec_nil (l : List (String × String))
    (g : String × String → Option PCourse)
    (hg : ∀ p c, g p = some c → c.sec = p.1) (Y S : String)
    (hS : S ∉ l.map Prod.fst) :
    (l.filterMap g).filter (fun c => decide (c.year = Y ∧ c.sec = S)) = [] := by
  rw [List.filter_eq_nil_iff]
  intro c hc
  obtain ⟨p, hp, hgp⟩ := List.mem_filterMap.mp hc
  simp only [decide_eq_true_eq]
  rintro ⟨-, hcs⟩
  exact hS (by
    rw [← hcs, hg p c hgp]
    exact List.mem_map_of_mem Prod.fst hp)

/-- One year of the padding block, filtered down to a listed section key
with pairwise distinct keys: exactly the idle course of that section when
its demand is below capacity. -/
theorem filterMap_pad_filter (req : List (String × Int)) (n : Nat)
    (Y : String) :
    ∀ (l : List (String × String)) (S : String), S ∈ l.map Prod.fst →
      (l.map Prod.fst).Nodup →
      ((l.filterMap (fun p =>
          if (pyLookup req (sectionKey Y p.1)).getD 0 < (n : Int) then
            some (freeCourse Y p.1
              ((pyLookup req (sectionKey Y p.1)).getD 0) n)
          else none)).filter
        (fun c => decide (c.year = Y ∧ c.sec = S))) =
      (if (pyLookup req (sectionKey Y S)).getD 0 < (n : Int) then
        [freeCourse Y S ((pyLookup req (sectionKey Y S)).getD 0) n]
      else []) := by
  intro l
  induction l with
  | nil =>
    intro S hS _
    cases hS
  | cons p rest ih =>
    intro S hS hnd
    simp only [List.map_cons, List.nodup_cons] at hnd
    rw [List.filterMap_cons]
    by_cases hps : p.1 = S
    · have hrest : ((rest.filterMap (fun p =>
          if (pyLookup req (sectionKey Y p.1)).getD 0 < (n : Int) then
            some (freeCourse Y p.1
              ((pyLookup req (sectionKey Y p.1)).getD 0) n)
          else none)).filter
          (fun c => decide (c.year = Y ∧ c.sec = S))) = [] := by
        apply filter_filterMap_sec_nil
        · intro q c hgq
          by_cases hq : (pyLookup req (sectionKey Y q.1)).getD 0 < (n : Int)
          · rw [if_pos hq] at hgq
            rw [← Option.some_inj.mp hgq]
            rfl
          · rw [if_neg hq] at hgq
            exact Option.noConfusion hgq
        · exact hps ▸ hnd.1
      by_cases hu : (pyLookup req (sectionKey Y p.1)).getD 0 < (n : Int)
      · rw [if_pos hu, List.filter_cons, if_pos (by simp [freeCourse, hps]),
          hrest, if_pos (by rw [← hps]; exact hu), hps]
      · rw [if_neg hu, hrest, if_neg (by rw [← hps]; exact hu)]
    · by_cases hu : (pyLookup req (sectionKey Y p.1)).getD 0 < (n : Int)
      · rw [if_pos hu, List.filter_cons, if_neg (by simp [freeCourse, hps]),
          ih S (by
            rcases List.mem_cons.mp hS with he | hm
            · exact absurd he.symm hps
            · exact hm) hnd.2]
      · rw [if_neg hu,
          ih S (by
            rcases List.mem_cons.mp hS with he | hm
            · exact absurd he.symm hps
            · exact hm) hnd.2]

/-- The padding block filtered to one routed year and section: exactly
its idle course when demand is below capacity, nothing otherwise. -/
theorem padding_filter (sections : Sections) (req : List (String × Int))
    (n : Nat) (Y S : String) (hY : Y ∈ years4)
    (hS : S ∈ (sectionsGet sections Y).map Prod.fst)
    (hsec : ((sectionsGet sections Y).map Prod.fst).Nodup) :
    (paddingCourses sections req n).filter
      (fun c => decide (c.year = Y ∧ c.sec = S)) =
      (if (pyLookup req (sectionKey Y S)).getD 0 < (n : Int) then
        [freeCourse Y S ((pyLookup req (sectionKey Y S)).getD 0) n]
      else []) := by
  unfold paddingCourses
  rw [filter_flatMap]
  rw [flatMap_single years4 _ Y hY (by decide)]
  · exact filterMap_pad_filter req n Y (sectionsGet sections Y) S hS hsec
  · intro y _ hne
    rw [List.filter_eq_nil_iff]
    intro c hc
    obtain ⟨p, -, hgp⟩ := List.mem_filterMap.mp hc
    simp only [decide_eq_true_eq]
    rintro ⟨hcy, -⟩
    by_cases hq : (pyLookup req (sectionKey y p.1)).getD 0 < (n : Int)
    · rw [if_pos hq] at hgp
      have hcy2 : c.year = y := by
        rw [← Option.some_inj.mp hgp]
        rfl
      exact hne (by rw [← hcy, hcy2])
    · rw [if_neg hq] at hgp
      exact Option.noConfusion hgp

/-- The covered start positions of two disjoint bookings are disjoint. -/
theorem disjoint_Ico_of_sep (a b c d : Nat) (h : a + b ≤ c ∨ c + d ≤ a) :
    Disjoint (Finset.Ico a (a + b)) (Finset.Ico c (c + d)) := by
  rw [Finset.disjoint_left]
  intro x hx hx2
  rw [Finset.mem_Ico] at hx hx2
  omega

/-- The interval of a booking is disjoint from the union of the later
pairwise-separated bookings. -/
theorem disjoint_covered (p : Nat × Nat) :
    ∀ l : List (Nat × Nat),
      (∀ q ∈ l, p.1 + p.2 ≤ q.1 ∨ q.1 + q.2 ≤ p.1) →
      Disjoint (Finset.Ico p.1 (p.1 + p.2))
        (l.foldr (fun q acc => Finset.Ico q.1 (q.1 + q.2) ∪ acc) ∅) := by
  intro l
  induction l with
  | nil =>
    intro _
    simp
  | cons q rest ih =>
    intro h
    rw [List.foldr_cons, Finset.disjoint_union_right]
    exact ⟨disjoint_Ico_of_sep _ _ _ _ (h q (List.mem_cons_self _ _)),
      ih (fun q' hq' => h q' (List.mem_cons_of_mem _ hq'))⟩

/-- Cardinality of the union of pairwise-separated bookings. -/
theorem covered_card : ∀ l : List (Nat × Nat),
    l.Pairwise (fun p q => p.1 + p.2 ≤ q.1 ∨ q.1 + q.2 ≤ p.1) →
    (l.foldr (fun q acc => Finset.Ico q.1 (q.1 + q.2) ∪ acc) ∅).card =
      (l.map Prod.snd).sum := by
  intro l
  induction l with
  | nil => intro _; rfl
  | cons p rest ih =>
    intro hp
    rw [List.foldr_cons, List.map_cons, List.sum_cons,
      Finset.card_union_of_disjoint
        (disjoint_covered p rest (List.pairwise_cons.mp hp).1),
      ih (List.pairwise_cons.mp hp).2, Nat.card_Ico]
    omega

/-- The union of fitting bookings stays inside the range. -/
theorem covered_subset (n : Nat) : ∀ l : List (Nat × Nat),
    (∀ p ∈ l, p.1 + p.2 ≤ n) →
    (l.foldr (fun q acc => Finset.Ico q.1 (q.1 + q.2) ∪ acc) ∅) ⊆
      Finset.range n := by
  intro l
  induction l with
  | nil =>
    intro _
    simp
  | cons p rest ih =>
    intro h
    rw [List.foldr_cons]
    apply Finset.union_subset
    · intro x hx
      rw [Finset.mem_Ico] at hx
      rw [Finset.mem_range]
      have := h p (List.mem_cons_self _ _)
      omega
    · exact ih (fun q hq => h q (List.mem_cons_of_mem _ hq))

/-- Pigeonhole for pairwise-separated bookings inside `n` positions: the
total booked length is at most `n`. -/
theorem sum_snd_le (n : Nat) (l : List (Nat × Nat))
    (hfit : ∀ p ∈ l, p.1 + p.2 ≤ n)
    (hsep : l.Pairwise (fun p q => p.1 + p.2 ≤ q.1 ∨ q.1 + q.2 ≤ p.1)) :
    (l.map Prod.snd).sum ≤ n := by
  rw [← covered_card l hsep]
  calc (l.foldr (fun q acc => Finset.Ico q.1 (q.1 + q.2) ∪ acc) ∅).card
      ≤ (Finset.range n).card := Finset.card_le_card (covered_subset n l hfit)
    _ = n := Finset.card_range n

/-- Casting a sum of clamped nonnegative integers back. -/
theorem sum_toNat_cast (l : List Int) (hl : ∀ x ∈ l, 0 ≤ x) :
    ((l.map Int.toNat).sum : Int) = l.sum := by
  induction l with
  | nil => rfl
  | cons a rest ih =>
    simp only [List.map_cons, List.sum_cons, Nat.cast_add]
    rw [Int.toNat_of_nonneg (hl a (List.mem_cons_self _ _)),
      ih (fun x hx => hl x (List.mem_cons_of_mem _ hx))]

/-- Every course of the padded list has positive duration when the
academic courses do: idle courses always have duration 1. -/
theorem padded_duration_pos (courses : List Course)
    (teachers : List (String × TeacherInfo)) (sections : Sections) (n : Nat)
    (hdur : ∀ c ∈ processCourses courses teachers, 1 ≤ c.duration) :
    ∀ c ∈ processedWithPadding courses teachers sections true n,
      1 ≤ c.duration := by
  intro c hc
  have hc2 : c ∈ processCourses courses teachers ++
      paddingCourses sections (sectionReq (processCourses courses teachers))
        n := hc
  rcases List.mem_append.mp hc2 with hm | hm
  · exact hdur c hm
  · unfold paddingCourses at hm
    simp only [List.mem_flatMap, List.mem_filterMap] at hm
    obtain ⟨y, -, p, -, hval⟩ := hm
    split at hval
    · cases hval
      exact le_refl 1
    · cases hval

/-- Duration mass of the populated buckets of one routed year and
section: the summed durations of its occurrences, provided every
occurrence resolves its entry and routed occurrences land on weekday
labels (the facts `assembleRaw_eq` yields). -/
theorem sum_durations_buckets (slots : List Slot) (sections : Sections)
    (A : Nat → Nat) (Y S : String) (hY : Y ∈ years4)
    (hS : S ∈ (sectionsGet sections Y).map Prod.fst) :
    ∀ occs : List Occ,
      (∀ o ∈ occs, ∃ de, entryOf slots sections o (A o.occId) = some de ∧
        (goodOcc sections o → de.1 ∈ weekDays)) →
      (weekDays.map (fun d =>
        ((entriesFor slots sections occs A Y S d).map
          (fun e => e.end_hr - e.start_hr)).sum)).sum =
      ((occs.filter (fun o => decide (o.year = Y ∧ o.sec = S))).map
        (fun o => o.duration)).sum := by
  intro occs
  induction occs using List.reverseRecOn with
  | nil =>
    intro _
    rfl
  | append_singleton l o ih =>
    intro hside
    obtain ⟨⟨d0, e⟩, hoe, hgood⟩ := hside o (List.mem_append_right _
      (List.mem_singleton_self _))
    have hside2 : ∀ o' ∈ l, ∃ de,
        entryOf slots sections o' (A o'.occId) = some de ∧
        (goodOcc sections o' → de.1 ∈ weekDays) :=
      fun o' ho' => hside o' (List.mem_append_left _ ho')
    have hday : ∀ d ∈ weekDays,
        ((entriesFor slots sections (l ++ [o]) A Y S d).map
          (fun e => e.end_hr - e.start_hr)).sum =
        ((entriesFor slots sections l A Y S d).map
          (fun e => e.end_hr - e.start_hr)).sum +
        (if o.year = Y ∧ o.sec = S ∧ d0 = d then e.end_hr - e.start_hr
          else 0) := by
      intro d _
      rw [entriesFor_snoc slots sections l o A d0 e hoe, List.map_append,
        List.sum_append]
      congr 1
      by_cases hc : o.year = Y ∧ o.sec = S ∧ d0 = d
      · rw [if_pos hc, if_pos hc]
        simp
      · rw [if_neg hc, if_neg hc]
        rfl
    rw [List.map_congr_left hday, List.sum_map_add, ih hside2,
      List.filter_append, List.map_append, List.sum_append]
    congr 1
    by_cases hc : o.year = Y ∧ o.sec = S
    · have hfo : List.filter (fun o => decide (o.year = Y ∧ o.sec = S)) [o] =
          [o] := by
        rw [List.filter_cons, if_pos (by simpa using hc)]
        rfl
      have hd0 : d0 ∈ weekDays := hgood ⟨hc.1 ▸ hY, by
        rw [hc.1]
        exact hc.2 ▸ hS⟩
      obtain ⟨sl, -, -, hst, hen, -⟩ :=
        entryOf_inv slots sections o (A o.occId) d0 e hoe
      have hde : e.end_hr - e.start_hr = o.duration := by
        rw [hst, hen]
        ring
      have hB : ∀ d ∈ weekDays,
          (if o.year = Y ∧ o.sec = S ∧ d0 = d then e.end_hr - e.start_hr
            else 0) = (if d0 = d then o.duration else 0) := by
        intro d _
        by_cases h : d0 = d
        · rw [if_pos ⟨hc.1, hc.2, h⟩, if_pos h, hde]
        · rw [if_neg (fun hx => h hx.2.2), if_neg h]
      rw [List.map_congr_left hB, sum_ite_int weekDays (by decide) d0
        o.duration, if_pos hd0, hfo]
      simp
    · have hfo : List.filter (fun o => decide (o.year = Y ∧ o.sec = S)) [o] =
          [] := by
        rw [List.filter_cons, if_neg (by simpa using hc)]
        rfl
      have hB : ∀ d ∈ weekDays,
          (if o.year = Y ∧ o.sec = S ∧ d0 = d then e.end_hr - e.start_hr
            else 0) = (0 : Int) := by
        intro d _
        exact if_neg (fun hx => hc ⟨hx.1, hx.2.1⟩)
      rw [List.map_congr_left hB, hfo]
      simp

/-- C8, counterexample: on a three-slot week with padding enabled, a
satisfiable instance whose Year1 maths lecture has duration 2 yields a
schedule whose Year1 section A holds 2 entries, not 3 = the week's slot
count; the claim's entry count differs from the slot count, while the
summed entry durations do equal it. -/
theorem c8_counterexample :
    Satisfies occsC8 asgC8 ∧
    buildOccs (slotsOf wdMon3)
      (processedWithPadding crsC8 teaC8 secY1A true (slotsOf wdMon3).length)
      0 = .ok occsC8 ∧
    ∃ r, generate wdMon3 crsC8 teaC8 secY1A true .feasible asgC8 =
        some (.schedule r) ∧
      entryCount r "Year1" "A" ≠ (slotsOf wdMon3).length ∧
      durationSum r "Year1" "A" = ((slotsOf wdMon3).length : Int) :=
  ⟨by decide, rfl, respC8, rfl, by decide, by decide⟩

/-- C8 (corrected): with free-period padding enabled, when occurrence
creation succeeds, the solver reports success (the assignment satisfies
the constraint model) and a schedule is returned, then for every routed
year and section the summed entry DURATIONS across the week equal the
week's slot count — the claim's entry COUNT equals it only when every
duration is 1.  Assumes positive durations and nonnegative lecture
counts, per-year section keys pairwise distinct (Python dict keys), and
that no foreign course collides with the section key of the inspected
pair. -/
theorem c8_duration_sum (wd : List RawDay) (courses : List Course)
    (teachers : List (String × TeacherInfo)) (sections : Sections)
    (st : CpStatus) (A : Nat → Nat) (r : Resp) (occs : List Occ)
    (Y S : String) (hY : Y ∈ years4)
    (hS : S ∈ (sectionsGet sections Y).map Prod.fst)
    (hsec : ∀ y, ((sectionsGet sections y).map Prod.fst).Nodup)
    (hdur : ∀ c ∈ processCourses courses teachers, 1 ≤ c.duration)
    (hlec : ∀ c ∈ processCourses courses teachers, 0 ≤ c.lectures)
    (hkey : ∀ c ∈ processCourses courses teachers,
      sectionKey c.year c.sec = sectionKey Y S → c.year = Y ∧ c.sec = S)
    (hb : buildOccs (slotsOf wd)
      (processedWithPadding courses teachers sections true (slotsOf wd).length)
      0 = .ok occs)
    (hsat : Satisfies occs A)
    (hgen : generate wd courses teachers sections true st A =
      some (.schedule r)) :
    durationSum r Y S = ((slotsOf wd).length : Int) := by
  obtain ⟨occs2, hb2, r0, ha, hr⟩ := generate_schedule_inv wd courses teachers
    sections true st A r hgen
  rw [hb] at hb2
  obtain rfl : occs = occs2 := Except.ok.inj hb2
  obtain ⟨hcan, hside⟩ := assembleRaw_eq (slotsOf wd) sections occs A r0
    hsec ha
  subst hr
  subst hcan
  unfold durationSum
  have hday : ∀ d ∈ weekDays,
      (((getBucket (sortResp (canonicalResp (slotsOf wd) sections occs A))
          Y S d).getD []).map (fun e => e.end_hr - e.start_hr)).sum =
      ((entriesFor (slotsOf wd) sections occs A Y S d).map
        (fun e => e.end_hr - e.start_hr)).sum := by
    intro d hd
    rw [getBucket_sortResp, getBucket_canonical_some (slotsOf wd) sections
      occs A Y S d hY hS hd, Option.map_some', Option.getD_some]
    exact ((List.perm_insertionSort entryLe _).map _).sum_eq
  rw [List.map_congr_left hday,
    sum_durations_buckets (slotsOf wd) sections A Y S hY hS occs hside]
  have hocc := buildOccs_ok_eq (slotsOf wd) _ 0 occs hb
  have hdurpcs := padded_duration_pos courses teachers sections
    (slotsOf wd).length hdur
  have hdurocc : ∀ o ∈ occs, 1 ≤ o.duration := by
    intro o ho
    rw [hocc] at ho
    obtain ⟨c, hcm, -, -, -, hcd, -⟩ := mem_expandOccs (slotsOf wd) _ 0 o ho
    exact hcd ▸ hdurpcs c hcm
  have hfitocc : ∀ o ∈ occs,
      (A o.occId : Int) + o.duration ≤ ((slotsOf wd).length : Int) := by
    intro o ho
    have hdom := hsat.1 o ho
    rw [hocc] at ho
    obtain ⟨c, hcm, -, -, -, hcd, hcdom⟩ :=
      mem_expandOccs (slotsOf wd) _ 0 o ho
    rw [hcdom] at hdom
    rw [hcd]
    exact (mem_allowedVals_fit (slotsOf wd) c (A o.occId) hdom).2
  have hpig : (((occs.filter (fun o => decide (o.year = Y ∧ o.sec = S))).map
      (fun o => o.duration)).sum) ≤ ((slotsOf wd).length : Int) := by
    have hfitL : ∀ q ∈ ((occs.filter
        (fun o => decide (o.year = Y ∧ o.sec = S))).map
          (fun o => (A o.occId, o.duration.toNat))),
        q.1 + q.2 ≤ (slotsOf wd).length := by
      intro q hq
      obtain ⟨o, ho, rfl⟩ := List.mem_map.mp hq
      have ho2 := List.mem_of_mem_filter ho
      have h1 := hfitocc o ho2
      have h2 := hdurocc o ho2
      simp only
      omega
    have hsepL : ((occs.filter
        (fun o => decide (o.year = Y ∧ o.sec = S))).map
          (fun o => (A o.occId, o.duration.toNat))).Pairwise
        (fun p q => p.1 + p.2 ≤ q.1 ∨ q.1 + q.2 ≤ p.1) := by
      apply List.pairwise_map.mpr
      have hP := (hsat.2.2).filter
        (fun o => decide (o.year = Y ∧ o.sec = S))
      refine hP.imp_of_mem (fun h1m h2m hrel => ?_)
      rename_i o1 o2
      have hy1 := List.of_mem_filter h1m
      have hy2 := List.of_mem_filter h2m
      simp only [decide_eq_true_eq] at hy1 hy2
      have hno := hrel (by rw [hy1.1, hy1.2, hy2.1, hy2.2])
      unfold noOverlap at hno
      have hd1 := hdurocc o1 (List.mem_of_mem_filter h1m)
      have hd2 := hdurocc o2 (List.mem_of_mem_filter h2m)
      simp only
      omega
    have hb3 := sum_snd_le (slotsOf wd).length _ hfitL hsepL
    rw [List.map_map] at hb3
    have hb4 : ((occs.filter (fun o => decide (o.year = Y ∧ o.sec = S))).map
        (fun o => o.duration.toNat)).sum ≤ (slotsOf wd).length := hb3
    have hcast : ((((occs.filter
        (fun o => decide (o.year = Y ∧ o.sec = S))).map
          (fun o => o.duration.toNat)).sum : Nat) : Int) =
        ((occs.filter (fun o => decide (o.year = Y ∧ o.sec = S))).map
          (fun o => o.duration)).sum := by
      have h0 : ∀ x ∈ (occs.filter
          (fun o => decide (o.year = Y ∧ o.sec = S))).map
            (fun o => o.duration), 0 ≤ x := by
        intro x hx
        obtain ⟨o, ho, rfl⟩ := List.mem_map.mp hx
        exact le_trans zero_le_one (hdurocc o (List.mem_of_mem_filter ho))
      have h1 := sum_toNat_cast _ h0
      rw [List.map_map] at h1
      exact h1
    rw [← hcast]
    exact Nat.cast_le.mpr hb4
  rw [hocc, expandOccs_filter_sum] at hpig ⊢
  have hpp : processedWithPadding courses teachers sections true
      (slotsOf wd).length =
      processCourses courses teachers ++
        paddingCourses sections
          (sectionReq (processCourses courses teachers))
          (slotsOf wd).length := rfl
  rw [hpp, List.filter_append, List.map_append, List.sum_append,
    padding_filter sections (sectionReq (processCourses courses teachers))
      (slotsOf wd).length Y S hY hS (hsec Y)] at hpig ⊢
  have hacadv : ((List.filter (fun c => decide (c.year = Y ∧ c.sec = S))
      (processCourses courses teachers)).map
        (fun c => (c.lectures.toNat : Int) * c.duration)).sum =
      (pyLookup (sectionReq (processCourses courses teachers))
        (sectionKey Y S)).getD 0 := by
    rw [sectionReq_lookup]
    have hfe : List.filter (fun c => decide (c.year = Y ∧ c.sec = S))
        (processCourses courses teachers) =
        List.filter (fun c => decide (sectionKey c.year c.sec =
          sectionKey Y S)) (processCourses courses teachers) := by
      apply List.filter_congr
      intro c hcm
      by_cases h : c.year = Y ∧ c.sec = S
      · rw [decide_eq_true h, decide_eq_true (show sectionKey c.year c.sec =
          sectionKey Y S by rw [h.1, h.2])]
      · rw [decide_eq_false h,
          decide_eq_false (fun hk => h (hkey c hcm hk))]
    rw [hfe]
    apply congrArg List.sum
    apply List.map_congr_left
    intro c hcm
    rw [Int.toNat_of_nonneg (hlec c (List.mem_of_mem_filter hcm))]
  rw [hacadv] at hpig ⊢
  have hused0 : 0 ≤ (pyLookup (sectionReq (processCourses courses teachers))
      (sectionKey Y S)).getD 0 := by
    rw [sectionReq_lookup]
    apply List.sum_nonneg
    intro x hx
    obtain ⟨c, hcm, rfl⟩ := List.mem_map.mp hx
    have hcm2 := List.mem_of_mem_filter hcm
    exact mul_nonneg (hlec c hcm2) (le_trans zero_le_one (hdur c hcm2))
  by_cases hlt : (pyLookup (sectionReq (processCourses courses teachers))
      (sectionKey Y S)).getD 0 < ((slotsOf wd).length : Int)
  · rw [if_pos hlt]
    simp only [List.map_cons, List.map_nil, List.sum_cons, List.sum_nil,
      freeCourse, mul_one]
    omega
  · rw [if_neg hlt] at hpig ⊢
    simp only [List.map_nil, List.sum_nil] at hpig ⊢
    push_neg at hlt
    omega

/-- Witness for C8 at the completeness fixture: the duration mass of the
Year1 section A week equals the three slots of the calendar. -/
theorem c8_witness :
    ∃ r, generate wdMon3 crsC8 teaC8 secY1A true .feasible asgC8 =
        some (.schedule r) ∧
      durationSum r "Year1" "A" = ((slotsOf wdMon3).length : Int) :=
  ⟨respC8, rfl,
    c8_duration_sum wdMon3 crsC8 teaC8 secY1A .feasible asgC8 respC8 occsC8
      "Year1" "A" (by decide) (by decide)
      (sectionsGet_nodup secY1A (by decide)) (by decide) (by decide)
      (by decide) rfl (by decide) rfl⟩

/-- The lunch skip never decreases an hour. -/
theorem skipLunch_ge (h : Int) : h ≤ skipLunch h := by
  unfold skipLunch
  split <;> omega

/-- Every emitted hour of a day is at least the first hour plus its
position: hours advance by at least one per slot. -/
theorem dayHours_get_lb :
    ∀ (n : Nat) (start : Int) (k : Nat) (h : Int),
      (dayHours start n).get? k = some h → skipLunch start + k ≤ h := by
  intro n
  induction n with
  | zero =>
    intro start k h hg
    simp only [dayHours, List.get?_nil] at hg
    exact Option.noConfusion hg
  | succ m ih =>
    intro start k h hg
    simp only [dayHours] at hg
    cases k with
    | zero =>
      rw [List.get?_cons_zero] at hg
      have he := Option.some_inj.mp hg
      omega
    | succ k2 =>
      rw [List.get?_cons_succ] at hg
      have h2 := ih (skipLunch start + 1) k2 h hg
      have h3 := skipLunch_ge (skipLunch start + 1)
      omega

/-- Hour gap within one day: the hour `k` positions later is at least
`k` later on the clock. -/
theorem dayHours_gap :
    ∀ (n : Nat) (start : Int) (j k : Nat) (h1 h2 : Int),
      (dayHours start n).get? j = some h1 →
      (dayHours start n).get? (j + k) = some h2 → h1 + k ≤ h2 := by
  intro n
  induction n with
  | zero =>
    intro start j k h1 h2 hg1 _
    simp only [dayHours, List.get?_nil] at hg1
    exact Option.noConfusion hg1
  | succ m ih =>
    intro start j k h1 h2 hg1 hg2
    simp only [dayHours] at hg1 hg2
    cases j with
    | zero =>
      rw [List.get?_cons_zero] at hg1
      have he1 := Option.some_inj.mp hg1
      rw [Nat.zero_add] at hg2
      cases k with
      | zero =>
        rw [List.get?_cons_zero] at hg2
        have he2 := Option.some_inj.mp hg2
        omega
      | succ k2 =>
        rw [List.get?_cons_succ] at hg2
        have h3 := dayHours_get_lb m (skipLunch start + 1) k2 h2 hg2
        have h4 := skipLunch_ge (skipLunch start + 1)
        omega
    | succ j2 =>
      rw [List.get?_cons_succ] at hg1
      rw [show j2 + 1 + k = j2 + k + 1 from by omega,
        List.get?_cons_succ] at hg2
      exact ih (skipLunch start + 1) j2 k h1 h2 hg1 hg2

/-- Decomposition of a slot of one day block: its hour sits at its
in-day position of the emitted hours, its index is the counter plus that
position, its day label is the block label. -/
theorem mem_daySlots (day : String) (start : Int) (hours : Nat) (i0 : Nat)
    (sl : Slot) (h : sl ∈ daySlots day start hours i0) :
    ∃ p : Nat, (dayHours start hours).get? p = some sl.hour ∧
      sl.idx = i0 + p ∧ sl.day = day := by
  unfold daySlots at h
  obtain ⟨q, hq, rfl⟩ := List.mem_map.mp h
  exact ⟨q.1, List.mem_enum_iff_get?.mp hq, rfl, rfl⟩

/-- The slot at table position `s` carries index `i0 + s`. -/
theorem buildSlots_get_idx (days : List (String × Int × Int)) (i0 s : Nat)
    (sl : Slot) (h : (buildSlots days i0).get? s = some sl) :
    sl.idx = i0 + s := by
  have hlen : s < (buildSlots days i0).length := (List.get?_eq_some.mp h).1
  have h2 := congrArg (fun l => l.get? s) (buildSlots_map_idx days i0)
  simp only [List.get?_map, h, Option.map_some'] at h2
  rw [List.get?_eq_getElem?, List.getElem?_range' _ _ hlen, Nat.one_mul] at h2
  exact Option.some_inj.mp h2

/-- Two slots of the table carrying the same day label (day keys pairwise
distinct) keep a clock gap at least their index gap: slot hours advance
at least one per index within a day, and a day label names one block. -/
theorem buildSlots_same_day_gap :
    ∀ (days : List (String × Int × Int)) (i0 : Nat),
      (days.map Prod.fst).Nodup →
      ∀ sl1 ∈ buildSlots days i0, ∀ sl2 ∈ buildSlots days i0,
        sl1.day = sl2.day → sl1.idx ≤ sl2.idx →
        sl1.hour + ((sl2.idx - sl1.idx : Nat) : Int) ≤ sl2.hour := by
  intro days
  induction days with
  | nil =>
    intro i0 _ sl1 h1
    cases h1
  | cons q rest ih =>
    intro i0 hnd sl1 h1 sl2 h2 hday hle
    rcases q with ⟨d, hq, sq⟩
    simp only [buildSlots, List.mem_append] at h1 h2
    simp only [List.map_cons, List.nodup_cons] at hnd
    rcases h1 with h1 | h1 <;> rcases h2 with h2 | h2
    · obtain ⟨p1, hget1, hidx1, -⟩ := mem_daySlots _ _ _ _ _ h1
      obtain ⟨p2, hget2, hidx2, -⟩ := mem_daySlots _ _ _ _ _ h2
      have hp : p1 ≤ p2 := by omega
      have hg := dayHours_gap hq.toNat sq p1 (p2 - p1) sl1.hour sl2.hour hget1
        (by rw [show p1 + (p2 - p1) = p2 from by omega]; exact hget2)
      omega
    · obtain ⟨p1, -, -, hd1⟩ := mem_daySlots _ _ _ _ _ h1
      have hd2 := buildSlots_day_mem rest _ sl2 h2
      rw [← hday, hd1] at hd2
      exact absurd hd2 hnd.1
    · obtain ⟨p2, -, -, hd2⟩ := mem_daySlots _ _ _ _ _ h2
      have hd1 := buildSlots_day_mem rest _ sl1 h1
      rw [hday, hd2] at hd1
      exact absurd hd1 hnd.1
    · exact ih _ hnd.2 sl1 h1 sl2 h2 hday hle

/-- The claim's per-pair relation on tagged entries is symmetric. -/
theorem noTeacherRel_symm : Symmetric (fun p1 p2 : String × Entry =>
    p1.1 = p2.1 → p1.2.teacher = p2.2.teacher → ¬ hourOverlap p1.2 p2.2) := by
  intro p q h hdq hteq hov
  apply h hdq.symm hteq.symm
  unfold hourOverlap at hov ⊢
  tauto

/-- Provenance of a flattened entry of the populated response: some
routed occurrence resolved to exactly that tagged entry. -/
theorem mem_allEntries_canonical (slots : List Slot) (sections : Sections)
    (occs : List Occ) (A : Nat → Nat) (p : String × Entry)
    (hp : p ∈ allEntries (canonicalResp slots sections occs A)) :
    ∃ o ∈ occs, goodOcc sections o ∧
      entryOf slots sections o (A o.occId) = some p := by
  rw [allEntries_canonical] at hp
  simp only [List.mem_flatMap, List.mem_map] at hp
  obtain ⟨y, hy, q, hq, d, hd, e, he, rfl⟩ := hp
  unfold entriesFor at he
  rw [List.mem_filterMap] at he
  obtain ⟨o, ho, hoe⟩ := he
  cases hoe2 : entryOf slots sections o (A o.occId) with
  | none =>
    rw [hoe2] at hoe
    exact Option.noConfusion hoe
  | some de =>
    obtain ⟨de1, de2⟩ := de
    rw [hoe2] at hoe
    have hoe3 : (if o.year = y ∧ o.sec = q.1 ∧ de1 = d then some de2
        else none) = some e := hoe
    by_cases hc : o.year = y ∧ o.sec = q.1 ∧ de1 = d
    · rw [if_pos hc] at hoe3
      have he2 : de2 = e := Option.some_inj.mp hoe3
      refine ⟨o, ho, ⟨hc.1 ▸ hy, ?_⟩, ?_⟩
      · rw [hc.1]
        exact hc.2.1 ▸ List.mem_map_of_mem Prod.fst hq
      · rw [hoe2, hc.2.2, he2]
    · rw [if_neg hc] at hoe3
      exact Option.noConfusion hoe3

/-- Two resolved entries carrying the same bucket day whose occurrences
do not overlap on slot indices do not overlap on the clock either, given
pairwise distinct slot names and pairwise distinct lower-cased day
labels. -/
theorem entry_clock_disjoint (wd : List RawDay) (sections : Sections)
    (hn : ((slotsOf wd).map (fun sl => slotName sl.abbr sl.ord)).Nodup)
    (hl : ((buildDayMaps wd).map (fun p => pyLower p.1)).Nodup)
    (o1 o2 : Occ) (s1 s2 : Nat) (d0 : String) (e1 e2 : Entry)
    (h1 : entryOf (slotsOf wd) sections o1 s1 = some (d0, e1))
    (h2 : entryOf (slotsOf wd) sections o2 s2 = some (d0, e2))
    (hd1 : 1 ≤ o1.duration) (hd2 : 1 ≤ o2.duration)
    (hno : noOverlap s1 o1.duration s2 o2.duration) :
    ¬ hourOverlap e1 e2 := by
  obtain ⟨sl1, hg1, hsd1, hst1, hen1, -⟩ :=
    entryOf_inv (slotsOf wd) sections o1 s1 d0 e1 h1
  obtain ⟨sl2, hg2, hsd2, hst2, hen2, -⟩ :=
    entryOf_inv (slotsOf wd) sections o2 s2 d0 e2 h2
  have hm1 : sl1 ∈ slotsOf wd := List.get?_mem hg1
  have hm2 : sl2 ∈ slotsOf wd := List.get?_mem hg2
  have hd01 := slotToDay_slotsOf wd hn sl1 hm1
  have hd02 := slotToDay_slotsOf wd hn sl2 hm2
  rw [hsd1] at hd01
  rw [hsd2] at hd02
  have hll : pyLower sl1.day = pyLower sl2.day := by
    rw [← Option.some_inj.mp hd01, ← Option.some_inj.mp hd02]
  have hdd : sl1.day = sl2.day :=
    day_lower_inj (buildDayMaps wd) hl sl1.day (day_mem_slotsOf wd sl1 hm1)
      sl2.day (day_mem_slotsOf wd sl2 hm2) hll
  have hi1 : sl1.idx = 0 + s1 := buildSlots_get_idx (buildDayMaps wd) 0 s1 sl1 hg1
  have hi2 : sl2.idx = 0 + s2 := buildSlots_get_idx (buildDayMaps wd) 0 s2 sl2 hg2
  have hndk : ((buildDayMaps wd).map Prod.fst).Nodup := by
    apply List.Nodup.of_map pyLower
    rw [List.map_map]
    exact hl
  unfold noOverlap at hno
  unfold hourOverlap
  intro hov
  apply hov
  rcases hno with hno | hno
  · left
    have hgap := buildSlots_same_day_gap (buildDayMaps wd) 0 hndk sl1 hm1
      sl2 hm2 hdd (by omega)
    omega
  · right
    have hgap := buildSlots_same_day_gap (buildDayMaps wd) 0 hndk sl2 hm2
      sl1 hm1 hdd.symm (by omega)
    omega

/-- Pairwise teacher-disjointness of the flattened populated response,
from the teacher constraint of the model: with pairwise distinct slot
names and injective lower-cased day labels, two entries of the same
bucket day and teacher never overlap on the clock. -/
theorem pairwise_entries_canonical (wd : List RawDay) (sections : Sections)
    (A : Nat → Nat)
    (hn : ((slotsOf wd).map (fun sl => slotName sl.abbr sl.ord)).Nodup)
    (hl : ((buildDayMaps wd).map (fun p => pyLower p.1)).Nodup)
    (hsec : ∀ y, ((sectionsGet sections y).map Prod.fst).Nodup) :
    ∀ occs : List Occ, (∀ o ∈ occs, 1 ≤ o.duration) →
      (∀ o ∈ occs, ∃ de, entryOf (slotsOf wd) sections o (A o.occId) =
        some de ∧ (goodOcc sections o → de.1 ∈ weekDays)) →
      occs.Pairwise (fun o1 o2 => o1.teacher = o2.teacher →
        noOverlap (A o1.occId) o1.duration (A o2.occId) o2.duration) →
      (allEntries (canonicalResp (slotsOf wd) sections occs A)).Pairwise
        (fun p1 p2 => p1.1 = p2.1 → p1.2.teacher = p2.2.teacher →
          ¬ hourOverlap p1.2 p2.2) := by
  intro occs
  induction occs using List.reverseRecOn with
  | nil =>
    intro _ _ _
    rw [canonicalResp_nil, allEntries_respInit]
    exact List.Pairwise.nil
  | append_singleton l o ih =>
    intro hdur hside hpw
    obtain ⟨⟨d0, e⟩, hoe, hgd⟩ := hside o (List.mem_append_right _
      (List.mem_singleton_self _))
    have hperm := allEntries_canonical_snoc (slotsOf wd) sections l o A d0 e
      (hsec o.year) hoe
    rw [hperm.pairwise_iff (fun {a b} hab => noTeacherRel_symm hab),
      List.pairwise_append]
    obtain ⟨hpwl, -, hcross⟩ := List.pairwise_append.mp hpw
    refine ⟨ih (fun o' ho' => hdur o' (List.mem_append_left _ ho'))
      (fun o' ho' => hside o' (List.mem_append_left _ ho')) hpwl, ?_, ?_⟩
    · split <;> simp
    · intro x hx b hb
      by_cases hg : goodOcc sections o ∧ d0 ∈ weekDays
      · rw [if_pos hg] at hb
        rcases List.mem_singleton.mp hb with rfl
        obtain ⟨xd, xe⟩ := x
        obtain ⟨o', ho', -, hoe'⟩ :=
          mem_allEntries_canonical (slotsOf wd) sections l A (xd, xe) hx
        intro hdq hteq
        have hdq2 : xd = d0 := hdq
        subst hdq2
        have hteq2 : xe.teacher = e.teacher := hteq
        obtain ⟨-, -, -, -, -, hte1⟩ :=
          entryOf_inv (slotsOf wd) sections o' (A o'.occId) xd xe hoe'
        obtain ⟨-, -, -, -, -, hte2⟩ :=
          entryOf_inv (slotsOf wd) sections o (A o.occId) xd e hoe
        have hno := hcross o' ho' o (List.mem_singleton_self _)
          (by rw [← hte1, ← hte2, hteq2])
        exact entry_clock_disjoint wd sections hn hl o' o (A o'.occId)
          (A o.occId) xd xe e hoe' hoe
          (hdur o' (List.mem_append_left _ ho'))
          (hdur o (List.mem_append_right _ (List.mem_singleton_self _))) hno
      · rw [if_neg hg] at hb
        cases hb

/-- C1, counterexample: two independent violating runs.  First, with
working days `Monday` and `MONDAY`, both lower-casing to the same bucket
label, a satisfying solve of two single-slot lectures of one teacher
places them at distinct slot indices, yet the returned schedule holds
two overlapping 9-to-10 entries of that teacher in the `monday` bucket.
Second, with pairwise distinct lower-cased labels but colliding slot
names (day `M1zzz` emits name `M11`, which Monday's 11th slot then
rebinds to `monday`), a satisfying solve again returns two overlapping
9-to-10 entries of one teacher in the `monday` bucket — the slot-name
condition of the amended theorem is needed alongside the label
condition. -/
theorem c1_counterexample :
    (Satisfies occsC1 (fun i => i) ∧
    generate wdMonMON crsC1 teaT912 secY1A false .feasible (fun i => i) =
      some (.schedule respC1) ∧
    ¬ NoTeacherOverlap respC1) ∧
    (Satisfies occsColl (fun i => i) ∧
    generate wdColl crsC1 teaT910 secY1A false .feasible (fun i => i) =
      some (.schedule respColl) ∧
    ¬ NoTeacherOverlap respColl ∧
    ¬ ((slotsOf wdColl).map (fun sl => slotName sl.abbr sl.ord)).Nodup ∧
    ((buildDayMaps wdColl).map (fun p => pyLower p.1)).Nodup) :=
  ⟨⟨by decide, rfl, by decide⟩,
    by decide, rfl, by decide, by decide, by decide⟩

/-- C1 (corrected): when the calendar's slot names (the concatenated
abbreviation and position strings keying `slot_to_day`) are pairwise
distinct and the lower-cased day labels of the working-day dict are
pairwise distinct — both true for the seven standard weekday names —
every solve that returns a schedule satisfies no-teacher-double-booking:
any two entries of the same bucket day with the same teacher have
disjoint half-open clock intervals.  Either condition is needed: two
case-variant day names share a bucket, and colliding slot names (`M1`
position 1 next to `M` position 11) let a later day overwrite an earlier
name's bucket label, each producing overlapping same-teacher entries. -/
theorem c1_no_teacher_overlap (wd : List RawDay) (courses : List Course)
    (teachers : List (String × TeacherInfo)) (sections : Sections)
    (af : Bool) (st : CpStatus) (A : Nat → Nat) (r : Resp) (occs : List Occ)
    (hn : ((slotsOf wd).map (fun sl => slotName sl.abbr sl.ord)).Nodup)
    (hl : ((buildDayMaps wd).map (fun p => pyLower p.1)).Nodup)
    (hsec : ∀ y, ((sectionsGet sections y).map Prod.fst).Nodup)
    (hdur : ∀ o ∈ occs, 1 ≤ o.duration)
    (hb : buildOccs (slotsOf wd)
      (processedWithPadding courses teachers sections af (slotsOf wd).length)
      0 = .ok occs)
    (hsat : Satisfies occs A)
    (hgen : generate wd courses teachers sections af st A =
      some (.schedule r)) :
    NoTeacherOverlap r := by
  obtain ⟨occs2, hb2, r0, ha0, hr⟩ := generate_schedule_inv wd courses
    teachers sections af st A r hgen
  rw [hb] at hb2
  obtain rfl : occs = occs2 := Except.ok.inj hb2
  obtain ⟨hcan, hside⟩ := assembleRaw_eq (slotsOf wd) sections occs A r0
    hsec ha0
  subst hr
  subst hcan
  unfold NoTeacherOverlap
  rw [(allEntries_sortResp _).pairwise_iff
    (fun {a b} hab => noTeacherRel_symm hab)]
  exact pairwise_entries_canonical wd sections A hn hl hsec occs hdur hside
    hsat.2.1

/-- Witness for C1 at the three-slot Monday fixture: the returned
schedule has no teacher double-booking. -/
theorem c1_witness : NoTeacherOverlap respMon3 :=
  c1_no_teacher_overlap wdMon3 crsMath1 teaT912 secY1A false .feasible
    (fun _ => 0) respMon3 occsMon3 (by decide) (by decide)
    (sectionsGet_nodup secY1A (by decide)) (by decide) rfl (by decide) rfl

/-- Witness for the amended C4 theorem: the Year2 idle course of the
one-slot fixture is a padding course and carries the full window. -/
theorem c4_witness :
    freeY2A ∈ paddingCourses secY1A
      (sectionReq (processCourses crsMath1 teaT912)) 1 ∧
    (freeY2A.subject = "Free" ∧ freeY2A.teacher = "None" ∧
      freeY2A.duration = 1 ∧ freeY2A.start_hr = 0 ∧ freeY2A.end_hr = 24) :=
  ⟨by decide, c4_idle_window secY1A
    (sectionReq (processCourses crsMath1 teaT912)) 1 freeY2A (by decide)⟩

end Sched
